import Mathlib

/-!
Verification of the bcash consensus core against its specification.

The definitions below are shallow embeddings of the JavaScript sources:

* `lib/protocol/consensus.js` (constants, `getReward`, `fromCompact`,
  `toCompact`, `maxBlockSigops`)
* `lib/primitives/tx.js` (`TX.checkSanity`, `TX.checkInputs`,
  `TX.signatureHashV0`, sizes)
* `lib/primitives/block.js` (`Block.checkBody`, sizes)
* `lib/primitives/address.js` (`isMixedCase`, `Address.fromString`)
* `lib/mining/miner.js` (`Miner.assemble` fee-rate loop, `cmpRate`)
* `lib/blockchain/chain.js` (`getCashTarget` and friends, modelled from
  the specification; the file itself is not part of the sources given)

JavaScript numbers are modelled by `Nat`/`Int` (all quantities in play
stay far below 2^53, where JS arithmetic on integers is exact); byte
buffers are `List Nat`; arbitrary-precision `BN` values are `Nat`/`Int`.
-/

namespace BCash

/-! ## consensus.js: constants -/

/-- One bitcoin in satoshis (`exports.COIN`). -/
def COIN : Nat := 100000000

/-- Maximum amount of money in satoshis (`exports.MAX_MONEY`). -/
def MAX_MONEY : Nat := 21000000 * COIN

/-- Base block subsidy (`exports.BASE_REWARD`). -/
def BASE_REWARD : Nat := 50 * COIN

/-- Half base block subsidy (`exports.HALF_REWARD`);
`Math.floor(BASE_REWARD / 2)`. -/
def HALF_REWARD : Nat := BASE_REWARD / 2

/-- Maximum block base size (`exports.MAX_BLOCK_SIZE`). -/
def MAX_BLOCK_SIZE : Nat := 1000000

/-- Maximum fork block size (`exports.MAX_FORK_BLOCK_SIZE`). -/
def MAX_FORK_BLOCK_SIZE : Nat := 32000000

/-- Maximum transaction size (`exports.MAX_TX_SIZE`). -/
def MAX_TX_SIZE : Nat := 1000000

/-- Maximum block sigops per mb (`exports.MAX_BLOCK_SIGOPS_PER_MB`). -/
def MAX_BLOCK_SIGOPS_PER_MB : Nat := 20000

/-- Maximum size for coinbase script sig
(`exports.MAX_COINBASE_SCRIPTSIG_SIZE`). -/
def MAX_COINBASE_SCRIPTSIG_SIZE : Nat := 100

/-- Number of blocks before a coinbase spend can occur
(`exports.COINBASE_MATURITY`). -/
def COINBASE_MATURITY : Nat := 100

/-- Calculate max block sigops (`exports.maxBlockSigops`).
`const mb = 1 + ((size - 1) / 1e6 | 0); return mb * MAX_BLOCK_SIGOPS_PER_MB;`
(`size` is always a positive block size here, so the JS `| 0` truncation
is plain floor division). -/
def maxBlockSigops (size : Nat) : Nat :=
  (1 + (size - 1) / 1000000) * MAX_BLOCK_SIGOPS_PER_MB

/-! ## consensus.js: getReward -/

/-- Block subsidy (`exports.getReward`).  `halvings = Math.floor(height /
interval)`; 0 once `halvings >= 33`; `BASE_REWARD` for `halvings === 0`;
otherwise `HALF_REWARD >>> (halvings - 1)` (the JS `>>>` coerces
`HALF_REWARD = 2500000000 < 2^32` to itself and shifts by at most 31,
which is `Nat.shiftRight` here). -/
def getReward (height interval : Nat) : Nat :=
  let halvings := height / interval
  if 33 ≤ halvings then 0
  else if halvings = 0 then BASE_REWARD
  else HALF_REWARD >>> (halvings - 1)

/-- Reward as a function of the era (`Math.floor(height / interval)`)
alone; `getReward` factors through it. -/
def eraReward (halvings : Nat) : Nat :=
  if 33 ≤ halvings then 0
  else if halvings = 0 then BASE_REWARD
  else HALF_REWARD >>> (halvings - 1)

theorem getReward_eq_eraReward (height interval : Nat) :
    getReward height interval = eraReward (height / interval) := rfl

theorem sum_eraReward : ∑ k ∈ Finset.range 33, eraReward k = 9999999989 := by
  decide

/-- Grouping lemma: summing `g (h / I)` over `h < n * I` counts each era
value `I` times. -/
theorem sum_range_mul_div (g : Nat → Nat) (I : Nat) (hI : 0 < I) :
    ∀ n : Nat, ∑ h ∈ Finset.range (n * I), g (h / I)
      = I * ∑ k ∈ Finset.range n, g k := by
  intro n
  induction n with
  | zero => simp
  | succ n ih =>
    have hsplit : (n + 1) * I = n * I + I := by ring
    rw [hsplit, Finset.sum_range_add, ih, Finset.sum_range_succ, Nat.mul_add]
    congr 1
    have hval : ∀ j ∈ Finset.range I, g ((n * I + j) / I) = g n := by
      intro j hj
      rw [Finset.mem_range] at hj
      have hdiv : (n * I + j) / I = n := by
        rw [Nat.add_comm, Nat.mul_comm, Nat.add_mul_div_left _ _ hI,
          Nat.div_eq_of_lt hj, Nat.zero_add]
      rw [hdiv]
    rw [Finset.sum_congr rfl hval, Finset.sum_const, Finset.card_range,
      smul_eq_mul]

theorem sum_getReward (I : Nat) (hI : 0 < I) :
    ∑ h ∈ Finset.range (33 * I), getReward h I = I * 9999999989 := by
  have h1 : ∀ h : Nat, getReward h I = eraReward (h / I) := fun h => rfl
  calc ∑ h ∈ Finset.range (33 * I), getReward h I
      = ∑ h ∈ Finset.range (33 * I), eraReward (h / I) :=
        Finset.sum_congr rfl (fun h _ => h1 h)
    _ = I * ∑ k ∈ Finset.range 33, eraReward k := sum_range_mul_div _ I hI 33
    _ = I * 9999999989 := by rw [sum_eraReward]

theorem getReward_zero_of_le (I h : Nat) (hI : 0 < I) (hh : 33 * I ≤ h) :
    getReward h I = 0 := by
  unfold getReward
  have : 33 ≤ h / I := by
    rw [Nat.le_div_iff_mul_le hI]
    exact hh
  simp [this]

/-- C1, the claim as stated: the tail of the schedule is zero but the
total is 2_099_999_997_690_000 satoshis, not `21_000_000 * COIN =
2_100_000_000_000_000` — integer truncation in the halvings loses
11 satoshis per era height, 2_310_000 in total. -/
theorem C1_counterexample :
    ¬ (∑ h ∈ Finset.range (33 * 210000), getReward h 210000
        = 21000000 * COIN) := by
  rw [sum_getReward 210000 (by norm_num)]
  intro h
  rw [show COIN = 100000000 from rfl] at h
  omega

/-- C1 (amended): for the mainnet halving interval 210000 the reward
schedule terminates (zero from era 33 on) and the total emission is
exactly 2_099_999_997_690_000 satoshis: 2_310_000 satoshis short of
`21_000_000 * COIN`. -/
theorem C1_amended :
    (∀ h : Nat, 33 * 210000 ≤ h → getReward h 210000 = 0) ∧
    ∑ h ∈ Finset.range (33 * 210000), getReward h 210000
      = 2099999997690000 := by
  constructor
  · intro h hh
    exact getReward_zero_of_le 210000 h (by norm_num) hh
  · rw [sum_getReward 210000 (by norm_num)]

theorem C1_witness : getReward 6930000 210000 = 0 :=
  C1_amended.1 6930000 (by norm_num)

/-! ## consensus.js: compact target codec -/

/-- Modelled from the spec: `BN.byteLength()` of the external bn.js
big-number library (the spec's "3-byte mantissa shifted by
exponent-minus-3 bytes" codec works in whole bytes): the number of
base-256 digits of `n`, zero for zero.  Structural fuel of 300 bytes
makes the definition kernel-computable; it agrees with the digit count
for every `n < 256^300`, far above all values in this development. -/
def byteLengthGo : Nat → Nat → Nat
  | 0, _ => 0
  | fuel+1, n => if n = 0 then 0 else byteLengthGo fuel (n / 256) + 1

/-- Byte length of a big number (`num.byteLength()`). -/
def byteLength (n : Nat) : Nat := byteLengthGo 300 n

/-- Convert a compact number to a big number (`exports.fromCompact`).
The `>>>`/`&` are JS unsigned 32-bit operations on the `compact` word,
which coincide with `Nat` shifts and masks for `compact < 2^32`. -/
def fromCompact (compact : Nat) : Int :=
  if compact = 0 then 0
  else
    let exponent := compact >>> 24
    let negative := (compact >>> 23) &&& 1
    let mantissa := compact &&& 0x7fffff
    let num : Int :=
      if exponent ≤ 3 then ((mantissa >>> (8 * (3 - exponent)) : Nat) : Int)
      else ((mantissa <<< (8 * (exponent - 3)) : Nat) : Int)
    if negative = 1 then -num else num

/-- Magnitude part of `exports.toCompact`: exponent is the byte length,
mantissa the top three bytes (shifted up when the number is short),
renormalised when bit 23 is set, packed as `(exponent << 24) | mantissa`.
bn.js stores sign and magnitude separately: `ushrn`/shifts act on the
magnitude, and for the non-negative numbers reached in this development
`toNumber()` is the magnitude itself. -/
def toCompactMag (mag : Nat) : Nat :=
  let exponent := byteLength mag
  let mantissa :=
    if exponent ≤ 3 then mag <<< (8 * (3 - exponent))
    else mag >>> (8 * (exponent - 3))
  let mantissa2 := if mantissa &&& 0x800000 ≠ 0 then mantissa >>> 8 else mantissa
  let exponent2 := if mantissa &&& 0x800000 ≠ 0 then exponent + 1 else exponent
  (exponent2 <<< 24) ||| mantissa2

/-- Convert a big number to a compact number (`exports.toCompact`).
The final `% 2^32` is the JS `compact >>>= 0` coercion (JS int32 shift
overflow followed by `>>> 0` is addition modulo `2^32` here because
exponent and mantissa occupy disjoint bits). -/
def toCompact (num : Int) : Nat :=
  if num = 0 then 0
  else
    (if num < 0 then toCompactMag num.natAbs ||| 0x800000
     else toCompactMag num.natAbs) % 2^32

theorem byteLengthGo_zero (f : Nat) : byteLengthGo f 0 = 0 := by
  cases f <;> rfl

theorem byteLengthGo_fuel : ∀ f g n : Nat, n < 256^f → f ≤ g →
    byteLengthGo f n = byteLengthGo g n := by
  intro f
  induction f with
  | zero =>
    intro g n hn _
    interval_cases n
    rw [byteLengthGo_zero, byteLengthGo_zero]
  | succ f ih =>
    intro g n hn hfg
    obtain ⟨g', rfl⟩ : ∃ g', g = g' + 1 := ⟨g - 1, by omega⟩
    by_cases h0 : n = 0
    · subst h0; rw [byteLengthGo_zero, byteLengthGo_zero]
    · show (if n = 0 then 0 else byteLengthGo f (n / 256) + 1)
        = (if n = 0 then 0 else byteLengthGo g' (n / 256) + 1)
      rw [if_neg h0, if_neg h0, ih g' (n / 256) ?_ (by omega)]
      have : 256^(f+1) = 256^f * 256 := by ring
      rw [Nat.div_lt_iff_lt_mul (by norm_num)]
      omega

theorem byteLengthGo_lt : ∀ f n : Nat, n < 256^f → n < 256^(byteLengthGo f n) := by
  intro f
  induction f with
  | zero => intro n hn; interval_cases n; simp [byteLengthGo_zero]
  | succ f ih =>
    intro n hn
    by_cases h0 : n = 0
    · subst h0; simp [byteLengthGo_zero]
    · show n < 256 ^ (if n = 0 then 0 else byteLengthGo f (n / 256) + 1)
      rw [if_neg h0]
      have hdiv : n / 256 < 256^f := by
        rw [Nat.div_lt_iff_lt_mul (by norm_num)]
        calc n < 256^(f+1) := hn
          _ = 256^f * 256 := by ring
      have ihd := ih (n / 256) hdiv
      have : n < (n / 256 + 1) * 256 := by omega
      calc n < (n / 256 + 1) * 256 := this
        _ ≤ 256^(byteLengthGo f (n / 256)) * 256 := by
            exact Nat.mul_le_mul_right 256 (by omega)
        _ = 256^(byteLengthGo f (n / 256) + 1) := by ring

theorem byteLengthGo_le : ∀ f n : Nat, 0 < n →
    256^(byteLengthGo f n - 1) ≤ n := by
  intro f
  induction f with
  | zero =>
    intro n hn
    show 256^(0 - 1) ≤ n
    simpa using hn
  | succ f ih =>
    intro n hn
    show 256 ^ ((if n = 0 then 0 else byteLengthGo f (n / 256) + 1) - 1) ≤ n
    rw [if_neg (by omega)]
    by_cases hq : n / 256 = 0
    · rw [hq, byteLengthGo_zero]; simpa using hn
    · have ihd := ih (n / 256) (by omega)
      set G := byteLengthGo f (n / 256) with hG
      by_cases hG0 : G = 0
      · rw [hG0]; simpa using hn
      · have h1 : 256^G = 256^(G-1) * 256 := by
          conv_lhs => rw [show G = (G - 1) + 1 by omega]
          ring
        calc 256^(G + 1 - 1) = 256^(G-1) * 256 := by rw [Nat.add_sub_cancel, h1]
          _ ≤ (n / 256) * 256 := Nat.mul_le_mul_right 256 ihd
          _ ≤ n := Nat.div_mul_le_self n 256

theorem byteLength_pos (n : Nat) (hn : 0 < n) : 0 < byteLength n := by
  show 0 < byteLengthGo 300 n
  unfold byteLengthGo
  rw [if_neg (by omega)]
  omega

theorem byteLength_unique (n L : Nat) (hL0 : 0 < L) (hL : L ≤ 300)
    (hlo : 256^(L-1) ≤ n) (hhi : n < 256^L) : byteLength n = L := by
  have hn0 : 0 < n := lt_of_lt_of_le (Nat.pos_pow_of_pos _ (by norm_num)) hlo
  have hn300 : n < 256^300 :=
    lt_of_lt_of_le hhi (Nat.pow_le_pow_right (by norm_num) hL)
  have h1 := byteLengthGo_lt 300 n hn300
  have h2 := byteLengthGo_le 300 n hn0
  set B := byteLength n with hB
  by_contra hne
  rcases Nat.lt_or_ge B L with h | h
  · exact absurd (lt_of_lt_of_le h1 (Nat.pow_le_pow_right (by norm_num)
      (by omega : B ≤ L - 1))) (not_lt.mpr hlo)
  · have hBL : L ≤ B - 1 := by omega
    exact absurd (lt_of_lt_of_le hhi (Nat.pow_le_pow_right (by norm_num) hBL))
      (not_lt.mpr h2)

theorem shiftLeft8_eq (x a : Nat) : x <<< (8 * a) = x * 256^a := by
  rw [Nat.shiftLeft_eq, show (2:Nat)^(8*a) = 256^a from by
    rw [show (256:Nat) = 2^8 by norm_num, ← pow_mul]]

theorem shiftRight8_eq (x a : Nat) : x >>> (8 * a) = x / 256^a := by
  rw [Nat.shiftRight_eq_div_pow, show (2:Nat)^(8*a) = 256^a from by
    rw [show (256:Nat) = 2^8 by norm_num, ← pow_mul]]

theorem pow256_mul_div (M a b : Nat) (h : b ≤ a) :
    M * 256^a / 256^b = M * 256^(a-b) := by
  rw [show (256:Nat)^a = 256^(a-b) * 256^b from by
      rw [← pow_add]; congr 1; omega,
    ← Nat.mul_assoc, Nat.mul_div_cancel _ (Nat.pos_pow_of_pos b (by norm_num))]

theorem and_bit23 (n : Nat) (hn : n < 2^24) :
    (n &&& 0x800000 ≠ 0) ↔ 2^23 ≤ n := by
  rw [show (0x800000 : Nat) = 2^23 by norm_num, Nat.and_two_pow]
  rcases Nat.lt_or_ge n (2^23) with h | h
  · simp [Nat.testBit_lt_two_pow h]
    omega
  · have htb : n.testBit 23 = true := by
      rw [Nat.testBit_to_div_mod]
      have e23 : (2:Nat)^23 = 8388608 := by norm_num
      have e24 : (2:Nat)^24 = 16777216 := by norm_num
      have h1 : n / 2^23 = 1 := by
        rw [e23]; rw [e23] at h; rw [e24] at hn; omega
      rw [h1]
      rfl
    rw [htb]
    simp only [Bool.toNat_true, one_mul]
    constructor
    · intro _; exact h
    · intro _; positivity

/-- Evaluate `fromCompact` on a packed word `E * 2^24 + m` with a
three-byte non-negative mantissa. -/
theorem fromCompact_pack (E m : Nat) (hE0 : 0 < E) (hE : E ≤ 255)
    (hm : m < 2^23) :
    fromCompact (E * 2^24 + m)
      = (((if E ≤ 3 then m >>> (8 * (3 - E)) else m <<< (8 * (E - 3))) : Nat) : Int) := by
  have h24 : (0:Nat) < 2^24 := by norm_num
  have hc0 : E * 2^24 + m ≠ 0 := by positivity
  have he : (E * 2^24 + m) >>> 24 = E := by
    rw [Nat.shiftRight_eq_div_pow, Nat.add_comm,
      show E * 2^24 = 2^24 * E from Nat.mul_comm _ _,
      Nat.add_mul_div_left _ _ h24,
      Nat.div_eq_of_lt (by omega), Nat.zero_add]
  have hneg : ((E * 2^24 + m) >>> 23) &&& 1 = 0 := by
    rw [Nat.shiftRight_eq_div_pow]
    have hdiv : (E * 2^24 + m) / 2^23 = m / 2^23 + 2 * E := by
      rw [show E * 2^24 = 2^23 * (2 * E) by ring, Nat.add_comm,
        Nat.add_mul_div_left _ _ (by norm_num : (0:Nat) < 2^23)]
    rw [hdiv, Nat.div_eq_of_lt hm, Nat.zero_add, Nat.and_one_is_mod]
    omega
  have hmant : (E * 2^24 + m) &&& 0x7fffff = m := by
    rw [show (0x7fffff : Nat) = 2^23 - 1 by norm_num,
      Nat.and_pow_two_sub_one_eq_mod,
      show E * 2^24 = (E * 2) * 2^23 by ring, Nat.add_comm,
      Nat.add_mul_mod_self_right, Nat.mod_eq_of_lt hm]
  simp only [fromCompact, he, hneg, hmant]
  rw [if_neg hc0, if_neg (by omega : ¬ (0:Nat) = 1)]
  split <;> rfl

/-- Round trip on the normal form of a positive representable target:
`M * 256^k` with `0 < M < 2^23`. -/
theorem roundtrip_core (M k : Nat) (hM0 : 0 < M) (hM : M < 2^23)
    (hk : k ≤ 252) :
    fromCompact (toCompact ((M * 256^k : Nat) : Int)) = ((M * 256^k : Nat) : Int) := by
  have hpow : (0:Nat) < 256^k := Nat.pos_pow_of_pos k (by norm_num)
  set t : Nat := M * 256^k with ht
  have ht0 : 0 < t := Nat.mul_pos hM0 hpow
  have htoc : toCompact (t : Int) = toCompactMag t % 2^32 := by
    simp only [toCompact]
    rw [if_neg (by exact_mod_cast ht0.ne'),
      if_neg (by exact not_lt.mpr (Int.ofNat_nonneg t)),
      Int.natAbs_ofNat]
  set L := byteLength M with hLdef
  have hL1 : 0 < L := byteLength_pos M hM0
  have hMlo : 256^(L-1) ≤ M := byteLengthGo_le 300 M hM0
  have hMhi : M < 256^L := byteLengthGo_lt 300 M
    (lt_of_lt_of_le hM (by norm_num : (2:Nat)^23 ≤ 256^300))
  have hL3 : L ≤ 3 := by
    by_contra h
    have h3 : (256:Nat)^3 ≤ 256^(L-1) :=
      Nat.pow_le_pow_right (by norm_num) (by omega)
    have : (2:Nat)^23 < 256^3 := by norm_num
    omega
  have hBt : byteLength t = L + k := by
    apply byteLength_unique t (L+k) (by omega) (by omega)
    · calc (256:Nat)^(L+k-1) = 256^(L-1) * 256^k := by
            rw [← pow_add]; congr 1; omega
        _ ≤ M * 256^k := Nat.mul_le_mul_right _ hMlo
    · calc t < 256^L * 256^k := Nat.mul_lt_mul_of_lt_of_le hMhi le_rfl hpow
        _ = 256^(L+k) := by rw [← pow_add]
  set m₀ := M * 256^(3-L) with hm0def
  have hm0lo : 2^16 ≤ m₀ := by
    calc (2:Nat)^16 = 256^(L-1) * 256^(3-L) := by
          rw [← pow_add, show L-1+(3-L) = 2 by omega]; norm_num
      _ ≤ M * 256^(3-L) := Nat.mul_le_mul_right _ hMlo
  have hm0hi : m₀ < 2^24 := by
    calc m₀ < 256^L * 256^(3-L) :=
          Nat.mul_lt_mul_of_lt_of_le hMhi le_rfl (Nat.pos_pow_of_pos _ (by norm_num))
      _ = 256^3 := by rw [← pow_add, show L+(3-L) = 3 by omega]
      _ = 2^24 := by norm_num
  have hmant : (if byteLength t ≤ 3 then t <<< (8 * (3 - byteLength t))
                else t >>> (8 * (byteLength t - 3))) = m₀ := by
    rw [hBt]
    by_cases hc : L + k ≤ 3
    · rw [if_pos hc, shiftLeft8_eq, ht, Nat.mul_assoc, ← pow_add,
        show k + (3 - (L+k)) = 3 - L by omega]
    · have key : M * 256^k / 256^(L+k-3) = M * 256^(3-L) := by
        rw [show (256:Nat)^k = 256^(3-L) * 256^(L+k-3) from by
            rw [← pow_add]; congr 1; omega,
          ← Nat.mul_assoc, Nat.mul_div_cancel _ (Nat.pos_pow_of_pos _ (by norm_num))]
      rw [if_neg hc, shiftRight8_eq, ht, key]
  have hfinish : ∀ E mm : Nat, 0 < E → E ≤ 255 → mm < 2^23 →
      (if E ≤ 3 then mm >>> (8 * (3 - E)) else mm <<< (8 * (E - 3))) = t →
      fromCompact ((E <<< 24 ||| mm) % 2^32) = ((t : Nat) : Int) := by
    intro E mm hE0 hE hmm hval
    have hpack : E <<< 24 ||| mm = E * 2^24 + mm := by
      rw [Nat.shiftLeft_eq, Nat.mul_comm]
      exact (Nat.mul_add_lt_is_or (by omega : mm < 2^24) E).symm
    have h24 : (2:Nat)^24 = 16777216 := by norm_num
    have h32 : (2:Nat)^32 = 4294967296 := by norm_num
    have hlt : E * 2^24 + mm < 2^32 := by
      rw [h24, h32]; rw [show (2:Nat)^23 = 8388608 by norm_num] at hmm
      nlinarith
    rw [hpack, Nat.mod_eq_of_lt hlt, fromCompact_pack E mm hE0 hE hmm, hval]
  rw [htoc]
  simp only [toCompactMag, hmant]
  by_cases hbit : 2^23 ≤ m₀
  · rw [if_pos ((and_bit23 m₀ hm0hi).mpr hbit), if_pos ((and_bit23 m₀ hm0hi).mpr hbit)]
    have hL2 : L ≤ 2 := by
      by_contra h
      have hL3' : L = 3 := by omega
      rw [hL3', Nat.sub_self, pow_zero, Nat.mul_one] at hm0def
      omega
    have hm1 : m₀ >>> 8 = M * 256^(2-L) := by
      rw [show (8:Nat) = 8 * 1 by norm_num, shiftRight8_eq, hm0def,
        show 3 - L = (2-L) + 1 by omega, pow_add, pow_one, ← Nat.mul_assoc]
      exact Nat.mul_div_cancel _ (by norm_num)
    rw [hm1]
    apply hfinish (byteLength t + 1) (M * 256^(2-L)) (by omega) (by omega)
    · have : M * 256^(2-L) = m₀ >>> 8 := hm1.symm
      rw [this, Nat.shiftRight_eq_div_pow]
      have : m₀ / 2^8 < 2^16 := by
        rw [show (2:Nat)^24 = 2^16 * 2^8 by norm_num] at hm0hi
        rw [Nat.div_lt_iff_lt_mul (by norm_num)]
        exact hm0hi
      calc m₀ / 2^8 < 2^16 := this
        _ ≤ 2^23 := by norm_num
    · rw [hBt]
      by_cases hc : L + k + 1 ≤ 3
      · rw [if_pos hc, shiftRight8_eq, pow256_mul_div _ _ _ (by omega), ht,
          show 2 - L - (3 - (L+k+1)) = k by omega]
      · rw [if_neg hc, shiftLeft8_eq, Nat.mul_assoc, ← pow_add, ht,
          show 2 - L + (L+k+1-3) = k by omega]
  · rw [if_neg (by rw [and_bit23 m₀ hm0hi]; omega),
      if_neg (by rw [and_bit23 m₀ hm0hi]; omega)]
    apply hfinish (byteLength t) m₀ (by omega) (by omega) (by omega)
    rw [hBt]
    by_cases hc : L + k ≤ 3
    · rw [if_pos hc, shiftRight8_eq, pow256_mul_div _ _ _ (by omega), ht,
        show 3 - L - (3 - (L+k)) = k by omega]
    · rw [if_neg hc, shiftLeft8_eq, Nat.mul_assoc, ← pow_add, ht,
        show 3 - L + (L+k-3) = k by omega]

/-- C3: compact-target codec round trip.  Every positive target in the
image of `fromCompact` (on a 32-bit compact word; positivity rules out
the sign bit) is reproduced exactly by `fromCompact (toCompact t)`. -/
theorem C3_roundtrip (c : Nat) (hc : c < 2^32) (hpos : 0 < fromCompact c) :
    fromCompact (toCompact (fromCompact c)) = fromCompact c := by
  have hc0 : c ≠ 0 := by
    intro h
    rw [h] at hpos
    simp [fromCompact] at hpos
  have hm : c &&& 0x7fffff < 2^23 := by
    rw [show (0x7fffff : Nat) = 2^23 - 1 by norm_num,
      Nat.and_pow_two_sub_one_eq_mod]
    exact Nat.mod_lt c (by norm_num)
  have he255 : c >>> 24 ≤ 255 := by
    rw [Nat.shiftRight_eq_div_pow]
    have h24 : (2:Nat)^24 = 16777216 := by norm_num
    have h32 : (2:Nat)^32 = 4294967296 := by norm_num
    rw [h24]; rw [h32] at hc
    omega
  have hunfold : fromCompact c =
      if (c >>> 23) &&& 1 = 1 then
        -(((if c >>> 24 ≤ 3 then (c &&& 0x7fffff) >>> (8 * (3 - c >>> 24))
            else (c &&& 0x7fffff) <<< (8 * (c >>> 24 - 3))) : Nat) : Int)
      else (((if c >>> 24 ≤ 3 then (c &&& 0x7fffff) >>> (8 * (3 - c >>> 24))
            else (c &&& 0x7fffff) <<< (8 * (c >>> 24 - 3))) : Nat) : Int) := by
    simp only [fromCompact, if_neg hc0]
    split <;> split <;> simp_all
  have hnneg : ¬ ((c >>> 23) &&& 1 = 1) := by
    intro h
    rw [hunfold, if_pos h] at hpos
    have : (0:Int) ≤ (((if c >>> 24 ≤ 3 then (c &&& 0x7fffff) >>> (8 * (3 - c >>> 24))
            else (c &&& 0x7fffff) <<< (8 * (c >>> 24 - 3))) : Nat) : Int) :=
      Int.ofNat_nonneg _
    omega
  rw [hunfold, if_neg hnneg]
  rw [hunfold, if_neg hnneg] at hpos
  set num : Nat := (if c >>> 24 ≤ 3 then (c &&& 0x7fffff) >>> (8 * (3 - c >>> 24))
            else (c &&& 0x7fffff) <<< (8 * (c >>> 24 - 3))) with hnum
  have hnum0 : 0 < num := by exact_mod_cast hpos
  by_cases hec : c >>> 24 ≤ 3
  · have : num = (c &&& 0x7fffff) >>> (8 * (3 - c >>> 24)) := by rw [hnum, if_pos hec]
    have hnum23 : num < 2^23 := by
      rw [this, Nat.shiftRight_eq_div_pow]
      exact lt_of_le_of_lt (Nat.div_le_self _ _) hm
    have := roundtrip_core num 0 hnum0 hnum23 (by omega)
    simpa using this
  · have hval : num = (c &&& 0x7fffff) * 256^(c >>> 24 - 3) := by
      rw [hnum, if_neg hec, shiftLeft8_eq]
    have hM0 : 0 < c &&& 0x7fffff := by
      rcases Nat.eq_zero_or_pos (c &&& 0x7fffff) with h | h
      · rw [hval, h, Nat.zero_mul] at hnum0; omega
      · exact h
    have := roundtrip_core (c &&& 0x7fffff) (c >>> 24 - 3) hM0 hm (by omega)
    rw [hval]
    exact this

theorem C3_witness :
    0x1d00ffff < 2^32 ∧ 0 < fromCompact 0x1d00ffff ∧
      fromCompact (toCompact (fromCompact 0x1d00ffff)) = fromCompact 0x1d00ffff :=
  ⟨by norm_num, by decide, C3_roundtrip 0x1d00ffff (by norm_num) (by decide)⟩

/-! ## Chain state: the cash difficulty-adjustment algorithm

`lib/blockchain/chain.js` and `lib/blockchain/chainentry.js` are not
among the given sources; the definitions below are modelled from the
specification (§4.E "Cash DAA", §4.G) and are validated end-to-end
against the literal compact values asserted by the repository's own
difficulty test (`test/difficulty-test.js`, which is among the
sources). -/

/-- Mainnet proof-of-work limit (`network.pow.limit`):
`00000000ffff…ff` (28 trailing `ff` bytes), that is `2^224 - 1`. -/
def powLimit : Nat := 2^224 - 1

/-- Mainnet `network.pow.bits`: the compact form of the limit. -/
def powBits : Nat := 0x1d00ffff

/-- Mainnet `network.pow.targetSpacing`: 600 seconds. -/
def targetSpacing : Nat := 600

/-- A chain entry as used by the difficulty test: height, timestamp,
compact difficulty and cumulative chainwork. -/
structure Entry where
  height : Nat
  time : Int
  bits : Nat
  chainwork : Nat
  deriving Repr, DecidableEq

/-- The difficulty test keeps its chain in a height-indexed dictionary
(`const blocks = {}`), stubbing `chain.getAncestor(entry, height)` to
`blocks[height]` and `chain.getPrevious(entry)` to
`blocks[entry.height-1]`; we model the dictionary as a total function
from heights to entries. -/
def Table : Type := Nat → Entry

/-- Modelled from the spec: `ChainEntry.getProof()` (chainentry.js is
not among the sources).  Work contributed by a block: zero for a
non-positive target, otherwise `2^256 / (target + 1)` — the standard
expected-hash count for a 256-bit proof of work (spec §3 `chainwork:
u256`, §4.E "work gained"). -/
def getProof (bits : Nat) : Nat :=
  let target := fromCompact bits
  if target ≤ 0 then 0 else 2^256 / (target.toNat + 1)

/-- `getEntry` of the difficulty test: child of `prev`, `time` seconds
later, carrying `bits`; `chainwork = getProof().add(prev.chainwork)`. -/
def getEntry (prev : Entry) (time : Int) (bits : Nat) : Entry :=
  { height := prev.height + 1
    time := prev.time + time
    bits := bits
    chainwork := getProof bits + prev.chainwork }

/-- Entry for heights the dictionary has not been assigned at
(never reached in the runs below). -/
def nullEntry : Entry := ⟨0, 0, 0, 0⟩

/-- A dictionary assignment `blocks[e.height] = e`. -/
def tableSet (table : Table) (e : Entry) : Table :=
  fun h => if h = e.height then e else table h

/-- Modelled from the spec (§4.E: "suffix median" selection, chain.js
`getSuitableBlock`): of the three consecutive entries ending at the
candidate, pick the median by timestamp, via the reference
three-comparison sorting network (`x2` is the candidate). -/
def suitable3 (x0 x1 x2 : Entry) : Entry :=
  let s1 := if x2.time < x0.time then (x2, x1, x0) else (x0, x1, x2)
  let s2 := if s1.2.1.time < s1.1.time then (s1.2.1, s1.1, s1.2.2) else s1
  let s3 := if s2.2.2.time < s2.2.1.time then (s2.1, s2.2.2, s2.2.1) else s2
  s3.2.1

/-- Suitable block for `prev` inside a chain. -/
def suitableBlock (table : Table) (prev : Entry) : Entry :=
  suitable3 (table (prev.height - 2)) (table (prev.height - 1)) prev

/-- Modelled from the spec (§4.E, chain.js `computeTarget`): work
gained over the window times the target spacing, divided by the
timespan clamped to `[72, 288]` target spacings, giving the desired
work-per-block `W`; the next target is `2^256 / W - 1`. -/
def computeTarget (first last : Entry) : Nat :=
  let work := (last.chainwork - first.chainwork) * targetSpacing
  let actualTimespan : Int := last.time - first.time
  let clamped : Int :=
    if actualTimespan > 288 * (targetSpacing : Int) then 288 * (targetSpacing : Int)
    else if actualTimespan < 72 * (targetSpacing : Int) then 72 * (targetSpacing : Int)
    else actualTimespan
  let w := work / clamped.toNat
  2^256 / w - 1

/-- Modelled from the spec (§4.E, chain.js `getCashTarget`): suitable
blocks at the tip and 144 blocks below it, `computeTarget` between
them, capped at the proof-of-work limit. -/
def getCashTarget (table : Table) (prev : Entry) : Nat :=
  let last := suitableBlock table prev
  let ancestor := table (prev.height - 144)
  let first := suitableBlock table ancestor
  let target := computeTarget first last
  if powLimit < target then powBits else toCompact (target : Int)

/-- The test's block-piling loop (`for (...; i++) blocks[i] =
getEntry(blocks[i-1], time, bits);`): starting at index `i`, add `n`
blocks at a fixed spacing and fixed bits. -/
def pile (spacing : Int) (bits : Nat) : Nat → Nat → Table → Table
  | _, 0, table => table
  | i, n+1, table =>
      pile spacing bits (i+1) n
        (tableSet table (getEntry (table (i-1)) spacing bits))

/-- One step of the test's DAA loop (state: dictionary, next index,
current bits): `blocks[i] = getEntry(blocks[i-1], spacing, bits); bits
= getCashTarget(blocks[i])`. -/
def daaStep (spacing : Int) (s : Table × Nat × Nat) : Table × Nat × Nat :=
  let e := getEntry (s.1 (s.2.1 - 1)) spacing s.2.2
  let table := tableSet s.1 e
  (table, s.2.1 + 1, getCashTarget table e)

/-- Iterate the DAA loop. -/
def daaIter (spacing : Int) : Nat → Table × Nat × Nat → Table × Nat × Nat
  | 0, s => s
  | n+1, s => daaIter spacing n (daaStep spacing s)

/-- Genesis entry of the difficulty test at the given initial bits
(`blocks[0]`): `height 0`, `time 1269211443`, `chainwork =
getProof()`. -/
def genesisAt (bits : Nat) : Entry :=
  { height := 0, time := 1269211443, bits := bits, chainwork := getProof bits }

/-- Initial dictionary holding only the genesis entry. -/
def table0 (bits : Nat) : Table :=
  tableSet (fun _ => nullEntry) (genesisAt bits)

/-- Initial bits of the cash-difficulty test: sixteenth of the limit
(`network.pow.limit.ushrn(4)` compacted). -/
def testBits0 : Nat := toCompact ((powLimit >>> 4 : Nat) : Int)

/-- Initial bits of the claim's scenario: half of the limit. -/
def halfBits0 : Nat := toCompact ((powLimit >>> 1 : Nat) : Int)

/-- The history the cash-difficulty test builds before its first
literal assertion, all blocks carrying the initial bits: 2049 blocks at
600 s (heights 1–2049), ten more at 600 s (2050–2059), one at 6000 s
(2060), one at `2*600 - 6000 = -4800` s (2061), twenty at 600 s
(2062–2081) and one at 550 s (2082). -/
def testHistory : Table :=
  pile 550 testBits0 2082 1
    (pile 600 testBits0 2062 20
      (pile (-4800) testBits0 2061 1
        (pile 6000 testBits0 2060 1
          (pile 600 testBits0 2050 10
            (pile 600 testBits0 1 2049 (table0 testBits0))))))

/-- The scenario of the repository's difficulty test ("should test cash
difficulty") up to its first literal assertion: after `testHistory`,
ten blocks at 550 s with `getCashTarget` recomputed after each. -/
def testScenarioBits : Nat :=
  (daaIter 550 10 (testHistory, 2083, testBits0)).2.2

/-- The claim's literal scenario: a half-limit starting target, 2049
blocks at the nominal 600-second spacing, then ten blocks at 550
seconds with the compact target recomputed by `getCashTarget` after
each. -/
def claimScenarioBits : Nat :=
  (daaIter 550 10 (pile 600 halfBits0 1 2049 (table0 halfBits0), 2050, halfBits0)).2.2

/-! Closed forms of the two histories, used to keep kernel evaluation
shallow; each is proved equal (as a function) to the piled-up
dictionary. -/

/-- Timestamp of the test-history block at height `h ≤ 2082`: 600-second
spacing throughout, except that block 2060 is 6000 s after 2059 and
block 2061 is 4800 s before 2060 (so heights 2061–2081 are back on the
600-second grid), and block 2082 follows after 550 s. -/
def histTime (h : Nat) : Int :=
  if h = 2060 then 1269211443 + 600 * 2059 + 6000
  else if h = 2082 then 1269211443 + 600 * 2081 + 550
  else 1269211443 + 600 * (h : Int)

/-- Closed table: heights up to `bound` at constant bits, timestamps by
`T`, chainwork accumulating one `getProof` per block. -/
def closedTable (bits bound : Nat) (T : Nat → Int) : Table := fun h =>
  if h ≤ bound then ⟨h, T h, bits, (h+1) * getProof bits⟩ else nullEntry

/-- Closed form of `testHistory`. -/
def testBase : Table := closedTable testBits0 2082 histTime

/-- Closed form of the claim scenario's history: 2050 blocks on the
600-second grid at half-limit bits. -/
def claimBase : Table :=
  closedTable halfBits0 2049 (fun h => 1269211443 + 600 * (h : Int))

theorem closedTable_height (bits bound : Nat) (T : Nat → Int) (j : Nat)
    (hj : j ≤ bound) : (closedTable bits bound T j).height = j := by
  rw [closedTable, if_pos hj]

theorem closedTable_step (bits bound : Nat) (T : Nat → Int) (j : Nat)
    (spacing : Int) (h1 : 1 ≤ j) (h2 : j ≤ bound)
    (ht : T j = T (j-1) + spacing) :
    closedTable bits bound T j
      = getEntry (closedTable bits bound T (j-1)) spacing bits := by
  simp only [closedTable]
  rw [if_pos h2, if_pos (by omega : j - 1 ≤ bound), getEntry]
  have hj : j - 1 + 1 = j := by omega
  simp only [hj, ht]
  simp only [Entry.mk.injEq, true_and, and_true]
  ring

/-- The piling loop writes exactly the closed-table entries: if the
incoming dictionary agrees with `base` below `i` and is unassigned from
`i` on, and `base` extends entry-by-entry under `getEntry`, then after
`n` more blocks the dictionary agrees with `base` below `i + n` and is
unassigned from there on. -/
theorem pile_inv (spacing : Int) (bits : Nat) (base : Table) :
    ∀ (n i : Nat) (table : Table),
      1 ≤ i →
      (∀ j, i ≤ j → j < i + n →
        (base j).height = j ∧ base j = getEntry (base (j-1)) spacing bits) →
      (∀ h, h < i → table h = base h) →
      (∀ h, i ≤ h → table h = nullEntry) →
      ∀ h, pile spacing bits i n table h
        = if h < i + n then base h else nullEntry := by
  intro n
  induction n with
  | zero =>
    intro i table _ _ hlow hhigh h
    show table h = _
    by_cases hh : h < i + 0
    · rw [if_pos hh]; exact hlow h (by omega)
    · rw [if_neg hh]; exact hhigh h (by omega)
  | succ n ih =>
    intro i table hi hstep hlow hhigh h
    show pile spacing bits (i+1) n
      (tableSet table (getEntry (table (i-1)) spacing bits)) h = _
    have he : getEntry (table (i-1)) spacing bits = base i := by
      rw [hlow (i-1) (by omega)]
      exact (hstep i le_rfl (by omega)).2.symm
    have hheight : (base i).height = i := (hstep i le_rfl (by omega)).1
    have hlow' : ∀ h', h' < i + 1 →
        tableSet table (getEntry (table (i-1)) spacing bits) h' = base h' := by
      intro h' hh'
      rw [he]
      show (if h' = (base i).height then base i else table h') = base h'
      rw [hheight]
      by_cases hcase : h' = i
      · rw [if_pos hcase, hcase]
      · rw [if_neg hcase]; exact hlow h' (by omega)
    have hhigh' : ∀ h', i + 1 ≤ h' →
        tableSet table (getEntry (table (i-1)) spacing bits) h' = nullEntry := by
      intro h' hh'
      rw [he]
      show (if h' = (base i).height then base i else table h') = nullEntry
      rw [hheight, if_neg (by omega)]
      exact hhigh h' (by omega)
    have hres := ih (i+1) _ (by omega)
      (fun j hj1 hj2 => hstep j (by omega) (by omega)) hlow' hhigh' h
    rw [hres, show i + 1 + n = i + (n + 1) from by omega]

theorem table0_low (bits bound : Nat) (T : Nat → Int) (hT : T 0 = 1269211443) :
    ∀ h, h < 1 → table0 bits h = closedTable bits bound T h := by
  intro h hh
  have h0 : h = 0 := by omega
  subst h0
  simp [table0, tableSet, genesisAt, closedTable, hT]

theorem table0_high (bits : Nat) : ∀ h, 1 ≤ h → table0 bits h = nullEntry := by
  intro h hh
  show (if h = (genesisAt bits).height then genesisAt bits else nullEntry) = nullEntry
  rw [if_neg]
  show h ≠ (genesisAt bits).height
  simp [genesisAt]
  omega

theorem histTime_reg (j : Nat) (h1 : 1 ≤ j) (h2 : j ≤ 2082)
    (hne : j ≠ 2060 ∧ j ≠ 2061 ∧ j ≠ 2082) :
    histTime j = histTime (j-1) + 600 := by
  rw [histTime, histTime, if_neg hne.1, if_neg hne.2.2,
    if_neg (by omega : ¬ (j - 1 = 2060)), if_neg (by omega : ¬ (j - 1 = 2082))]
  rw [Nat.cast_sub h1]
  push_cast
  ring

theorem testHistory_eq : testHistory = testBase := by
  have mkLow : ∀ (tbl : Table) (b : Nat),
      (∀ h, tbl h = if h < b then testBase h else nullEntry) →
      ∀ h, h < b → tbl h = testBase h :=
    fun tbl b hc h hh => by rw [hc h, if_pos hh]
  have mkHigh : ∀ (tbl : Table) (b : Nat),
      (∀ h, tbl h = if h < b then testBase h else nullEntry) →
      ∀ h, b ≤ h → tbl h = nullEntry :=
    fun tbl b hc h hh => by rw [hc h, if_neg (by omega)]
  have hstepAt : ∀ (spacing : Int) (j : Nat), 1 ≤ j → j ≤ 2082 →
      histTime j = histTime (j-1) + spacing →
      (testBase j).height = j ∧
        testBase j = getEntry (testBase (j-1)) spacing testBits0 :=
    fun spacing j h1 h2 ht =>
      ⟨closedTable_height _ _ _ j h2, closedTable_step _ _ _ j spacing h1 h2 ht⟩
  have h1 := pile_inv 600 testBits0 testBase 2049 1 (table0 testBits0) (by omega)
    (fun j hj1 hj2 => hstepAt 600 j hj1 (by omega)
      (histTime_reg j hj1 (by omega) ⟨by omega, by omega, by omega⟩))
    (table0_low testBits0 2082 histTime (by norm_num [histTime]))
    (table0_high testBits0)
  have h2 := pile_inv 600 testBits0 testBase 10 2050 _ (by omega)
    (fun j hj1 hj2 => hstepAt 600 j (by omega) (by omega)
      (histTime_reg j (by omega) (by omega) ⟨by omega, by omega, by omega⟩))
    (mkLow _ (1 + 2049) h1) (mkHigh _ (1 + 2049) h1)
  have h3 := pile_inv 6000 testBits0 testBase 1 2060 _ (by omega)
    (fun j hj1 hj2 => by
      have hj : j = 2060 := by omega
      subst hj
      exact hstepAt 6000 2060 (by omega) (by omega) (by norm_num [histTime]))
    (mkLow _ (2050 + 10) h2) (mkHigh _ (2050 + 10) h2)
  have h4 := pile_inv (-4800) testBits0 testBase 1 2061 _ (by omega)
    (fun j hj1 hj2 => by
      have hj : j = 2061 := by omega
      subst hj
      exact hstepAt (-4800) 2061 (by omega) (by omega) (by norm_num [histTime]))
    (mkLow _ (2060 + 1) h3) (mkHigh _ (2060 + 1) h3)
  have h5 := pile_inv 600 testBits0 testBase 20 2062 _ (by omega)
    (fun j hj1 hj2 => hstepAt 600 j (by omega) (by omega)
      (histTime_reg j (by omega) (by omega) ⟨by omega, by omega, by omega⟩))
    (mkLow _ (2061 + 1) h4) (mkHigh _ (2061 + 1) h4)
  have h6 := pile_inv 550 testBits0 testBase 1 2082 _ (by omega)
    (fun j hj1 hj2 => by
      have hj : j = 2082 := by omega
      subst hj
      exact hstepAt 550 2082 (by omega) (by omega) (by norm_num [histTime]))
    (mkLow _ (2062 + 20) h5) (mkHigh _ (2062 + 20) h5)
  funext h
  have hfin : testHistory h = if h < 2082 + 1 then testBase h else nullEntry := h6 h
  rw [hfin]
  by_cases hh : h < 2082 + 1
  · rw [if_pos hh]
  · rw [if_neg hh, testBase, closedTable, if_neg (by omega)]

theorem claimHistory_eq :
    pile 600 halfBits0 1 2049 (table0 halfBits0) = claimBase := by
  have hstep : ∀ j : Nat, 1 ≤ j → j < 1 + 2049 →
      (claimBase j).height = j ∧
        claimBase j = getEntry (claimBase (j-1)) 600 halfBits0 := by
    intro j hj1 hj2
    refine ⟨closedTable_height _ _ _ j (by omega),
      closedTable_step _ _ _ j 600 hj1 (by omega) ?_⟩
    show (1269211443 : Int) + 600 * (j : Int)
      = 1269211443 + 600 * ((j - 1 : Nat) : Int) + 600
    rw [Nat.cast_sub hj1]
    push_cast
    ring
  have h1 := pile_inv 600 halfBits0 claimBase 2049 1 (table0 halfBits0) (by omega)
    hstep
    (table0_low halfBits0 2049 _ (by norm_num))
    (table0_high halfBits0)
  funext h
  rw [h1 h]
  by_cases hh : h < 1 + 2049
  · rw [if_pos hh]
  · rw [if_neg hh, claimBase, closedTable, if_neg (by omega)]

set_option maxRecDepth 10000 in
/-- C2 (amended): the cash-DAA sequence actually asserted by the
repository's difficulty test.  The starting target is a sixteenth of
the limit (`pow.limit >>> 4`, not half), and between the 2049
on-spacing blocks and the ten 550-second blocks the test inserts ten
600-second blocks, a 6000-second and a compensating `-4800`-second
block, twenty more 600-second blocks and one 550-second block; after
ten further 550-second blocks with `getCashTarget` recomputed after
each, the bits are exactly `0x1c0fe7b1`. -/
theorem C2_amended : testScenarioBits = 0x1c0fe7b1 := by
  rw [testScenarioBits, testHistory_eq]
  decide

set_option maxRecDepth 10000 in
/-- C2, the claim as stated, is false: starting from a half-limit
target with 2049 on-spacing blocks and running ten 550-second blocks
through `getCashTarget` yields bits `0x1c7f519e`, not `0x1c0fe7b1`. -/
theorem C2_counterexample :
    claimScenarioBits = 0x1c7f519e ∧ claimScenarioBits ≠ 0x1c0fe7b1 := by
  rw [claimScenarioBits, claimHistory_eq]
  exact ⟨by decide, by decide⟩

/-! ## Primitives: outpoints, inputs, outputs, transactions

`lib/primitives/tx.js` is among the sources; the small leaf classes it
uses (`Outpoint`, `Input`, `Output` from outpoint.js/input.js/output.js)
are not, and are modelled from the spec (§3 data model, §4.A framing).
Byte strings are `List Nat`; JS `Amount` numbers are `Int` (all sums
reached stay far below 2^53, where JS arithmetic is exact). -/

/-- Modelled from the spec: `OutPoint(prev_hash: Hash, index: u32)`
(outpoint.js). -/
structure Outpoint where
  hash : List Nat
  index : Nat
  deriving Repr, DecidableEq

/-- Modelled from the spec: "The null outpoint is `(0…0, 0xFFFFFFFF)`"
(`Outpoint.isNull`). -/
def Outpoint.isNull (p : Outpoint) : Bool :=
  p.hash = List.replicate 32 0 && p.index = 0xffffffff

/-- Modelled from the spec: `Input(prevout, script, sequence)`
(input.js). -/
structure Input where
  prevout : Outpoint
  script : List Nat
  sequence : Nat
  deriving Repr, DecidableEq

/-- Modelled from the spec: `Output(value, script)` (output.js). -/
structure Output where
  value : Int
  script : List Nat
  deriving Repr, DecidableEq

/-- A transaction (`class TX`): version, inputs, outputs, locktime. -/
structure TX where
  version : Nat
  inputs : List Input
  outputs : List Output
  locktime : Nat
  deriving Repr, DecidableEq

/-- Size of a varint (`encoding.sizeVarint` of the external bufio
library; spec §4.A: `<0xFD` → one byte; `0xFD`+u16; `0xFE`+u32;
`0xFF`+u64). -/
def sizeVarint (n : Nat) : Nat :=
  if n < 0xfd then 1
  else if n ≤ 0xffff then 3
  else if n ≤ 0xffffffff then 5
  else 9

/-- Modelled from the spec: `Input.getSize()` (input.js); §4.A input
framing `outpoint(36) | varint script_len | script | sequence(4)`. -/
def Input.getSize (i : Input) : Nat :=
  36 + sizeVarint i.script.length + i.script.length + 4

/-- Modelled from the spec: `Output.getSize()` (output.js); §4.A output
framing: 8-byte value, varint-prefixed script. -/
def Output.getSize (o : Output) : Nat :=
  8 + sizeVarint o.script.length + o.script.length

/-- `TX.getSize()` via `getNormalSizes()`: `4 + varint(#inputs) +
inputs + varint(#outputs) + outputs + 4`. -/
def TX.getSize (tx : TX) : Nat :=
  4 + sizeVarint tx.inputs.length + (tx.inputs.map Input.getSize).sum
    + sizeVarint tx.outputs.length + (tx.outputs.map Output.getSize).sum + 4

/-- Entry used in place of `tx.inputs[0]` on an impossible empty list
(`checkSanity` reaches the access only for a coinbase, which has
exactly one input). -/
def nullInput : Input := ⟨⟨List.replicate 32 0, 0xffffffff⟩, [], 0⟩

/-- `TX.isCoinbase()`: exactly one input and its prevout is null. -/
def TX.isCoinbase (tx : TX) : Bool :=
  tx.inputs.length = 1 && (tx.inputs.headD nullInput).prevout.isNull

/-- `TX.getOutputValue()`: sum of output values. -/
def TX.getOutputValue (tx : TX) : Int :=
  (tx.outputs.map Output.value).sum

/-- The output loop of `TX.checkSanity()`: first failure among
negative value, too-large value, or running total out of
`[0, MAX_MONEY]`. -/
def checkOutputsSanity : List Output → Int → Option (String × Nat)
  | [], _ => none
  | o :: rest, total =>
      if o.value < 0 then some ("bad-txns-vout-negative", 100)
      else if (MAX_MONEY : Int) < o.value then some ("bad-txns-vout-toolarge", 100)
      else
        let total := total + o.value
        if total < 0 ∨ (MAX_MONEY : Int) < total then
          some ("bad-txns-txouttotal-toolarge", 100)
        else checkOutputsSanity rest total

/-- The prevout-duplicate loop of `TX.checkSanity()` (a `BufferSet` of
`prevout.toKey()` keys): true when some prevout repeats. -/
def scanDupPrevouts : List Outpoint → List Outpoint → Bool
  | _, [] => false
  | seen, p :: rest => if p ∈ seen then true else scanDupPrevouts (p :: seen) rest

/-- `TX.checkSanity()`: the non-contextual sanity checks, in source
order, returning `[valid, reason, score]`. -/
def TX.checkSanity (tx : TX) : Bool × String × Nat :=
  if tx.inputs.length = 0 then (false, "bad-txns-vin-empty", 100)
  else if tx.outputs.length = 0 then (false, "bad-txns-vout-empty", 100)
  else if MAX_TX_SIZE < tx.getSize then (false, "bad-txns-oversize", 100)
  else match checkOutputsSanity tx.outputs 0 with
  | some (r, s) => (false, r, s)
  | none =>
    if scanDupPrevouts [] (tx.inputs.map Input.prevout) then
      (false, "bad-txns-inputs-duplicate", 100)
    else if tx.isCoinbase then
      let size := (tx.inputs.headD nullInput).script.length
      if size < 2 ∨ MAX_COINBASE_SCRIPTSIG_SIZE < size then
        (false, "bad-cb-length", 100)
      else (true, "valid", 0)
    else if tx.inputs.any (fun i => i.prevout.isNull) then
      (false, "bad-txns-prevout-null", 10)
    else (true, "valid", 0)

/-- The sanity conditions exactly as the spec sentence lists them
(§4.D "Sanity"): at least one input and one output; size at most
`MAX_TX_SIZE`; every output value in range; every running output total
in range; no duplicate prevouts; coinbase script size 2–100;
non-coinbase inputs all non-null. -/
def saneSpec (tx : TX) : Prop :=
  tx.inputs.length ≠ 0 ∧
  tx.outputs.length ≠ 0 ∧
  tx.getSize ≤ MAX_TX_SIZE ∧
  (∀ o ∈ tx.outputs, 0 ≤ o.value ∧ o.value ≤ (MAX_MONEY : Int)) ∧
  (∀ n : Nat, 0 ≤ ((tx.outputs.take n).map Output.value).sum ∧
      ((tx.outputs.take n).map Output.value).sum ≤ (MAX_MONEY : Int)) ∧
  (tx.inputs.map Input.prevout).Nodup ∧
  (tx.isCoinbase = true →
    2 ≤ (tx.inputs.headD nullInput).script.length ∧
    (tx.inputs.headD nullInput).script.length ≤ MAX_COINBASE_SCRIPTSIG_SIZE) ∧
  (tx.isCoinbase = false → ∀ i ∈ tx.inputs, i.prevout.isNull = false)

theorem checkOutputsSanity_none_iff :
    ∀ (outs : List Output) (t : Int), 0 ≤ t → t ≤ (MAX_MONEY : Int) →
      (checkOutputsSanity outs t = none ↔
        (∀ o ∈ outs, 0 ≤ o.value ∧ o.value ≤ (MAX_MONEY : Int)) ∧
        ∀ n : Nat, t + ((outs.take n).map Output.value).sum ≤ (MAX_MONEY : Int)) := by
  intro outs
  induction outs with
  | nil =>
    intro t ht0 htM
    simp [checkOutputsSanity]
    exact htM
  | cons o rest ih =>
    intro t ht0 htM
    rw [checkOutputsSanity]
    by_cases hv0 : o.value < 0
    · rw [if_pos hv0]
      constructor
      · intro h; exact absurd h (by simp)
      · intro ⟨hvals, _⟩
        exact absurd (hvals o (by simp)).1 (by omega)
    · rw [if_neg hv0]
      by_cases hvM : (MAX_MONEY : Int) < o.value
      · rw [if_pos hvM]
        constructor
        · intro h; exact absurd h (by simp)
        · intro ⟨hvals, _⟩
          exact absurd (hvals o (by simp)).2 (by omega)
      · rw [if_neg hvM]
        by_cases htv : t + o.value < 0 ∨ (MAX_MONEY : Int) < t + o.value
        · rw [if_pos htv]
          constructor
          · intro h; exact absurd h (by simp)
          · intro ⟨_, hrun⟩
            have h1 := hrun 1
            simp [List.take_succ] at h1
            omega
        · rw [if_neg htv]
          push_neg at htv
          rw [ih (t + o.value) htv.1 htv.2]
          constructor
          · intro ⟨hvals, hrun⟩
            refine ⟨?_, ?_⟩
            · intro o' ho'
              rcases List.mem_cons.mp ho' with h | h
              · subst h; exact ⟨by omega, by omega⟩
              · exact hvals o' h
            · intro n
              cases n with
              | zero => simpa using htM
              | succ n =>
                have := hrun n
                simp only [List.take_succ_cons, List.map_cons, List.sum_cons]
                omega
          · intro ⟨hvals, hrun⟩
            refine ⟨fun o' ho' => hvals o' (List.mem_cons_of_mem _ ho'), ?_⟩
            intro n
            have := hrun (n + 1)
            simp only [List.take_succ_cons, List.map_cons, List.sum_cons] at this
            omega

theorem scanDupPrevouts_false_iff :
    ∀ (ps seen : List Outpoint),
      scanDupPrevouts seen ps = false ↔ (ps.Nodup ∧ ∀ p ∈ ps, p ∉ seen) := by
  intro ps
  induction ps with
  | nil => intro seen; simp [scanDupPrevouts]
  | cons p rest ih =>
    intro seen
    rw [scanDupPrevouts]
    by_cases hmem : p ∈ seen
    · rw [if_pos hmem]
      constructor
      · intro h; exact absurd h (by simp)
      · intro ⟨_, hnot⟩
        exact absurd hmem (hnot p (by simp))
    · rw [if_neg hmem, ih (p :: seen)]
      constructor
      · intro ⟨hnd, hnot⟩
        refine ⟨List.nodup_cons.mpr ⟨?_, hnd⟩, ?_⟩
        · intro hp
          exact absurd (by simp : p ∈ p :: seen) (hnot p hp)
        · intro q hq
          rcases List.mem_cons.mp hq with h | h
          · subst h; exact hmem
          · intro hqs
            exact hnot q h (List.mem_cons_of_mem _ hqs)
      · intro ⟨hnd, hnot⟩
        have hnd' := List.nodup_cons.mp hnd
        refine ⟨hnd'.2, ?_⟩
        intro q hq hq'
        rcases List.mem_cons.mp hq' with h | h
        · subst h; exact hnd'.1 hq
        · exact hnot q (List.mem_cons_of_mem _ hq) h

/-- C5: `TX.checkSanity` returns `[true, 'valid', 0]` exactly when the
spec's sanity conditions all hold (and, being a pure function of the
transaction, leaves it unchanged). -/
theorem C5_checkSanity_iff (tx : TX) :
    tx.checkSanity = (true, "valid", 0) ↔ saneSpec tx := by
  unfold TX.checkSanity saneSpec
  by_cases h1 : tx.inputs.length = 0
  · rw [if_pos h1]
    simp [h1]
  · rw [if_neg h1]
    by_cases h2 : tx.outputs.length = 0
    · rw [if_pos h2]
      simp [h2]
    · rw [if_neg h2]
      by_cases h3 : MAX_TX_SIZE < tx.getSize
      · rw [if_pos h3]
        constructor
        · intro h; exact absurd h (by simp)
        · intro h; exact absurd h.2.2.1 (by omega)
      · rw [if_neg h3]
        rcases hout : checkOutputsSanity tx.outputs 0 with _ | ⟨r, s⟩
        case neg.some.mk =>
          constructor
          · intro h; exact absurd h (by simp)
          · intro h
            have hnone : checkOutputsSanity tx.outputs 0 = none := by
              rw [checkOutputsSanity_none_iff tx.outputs 0 le_rfl (by norm_num)]
              exact ⟨h.2.2.2.1, fun n => by simpa using (h.2.2.2.2.1 n).2⟩
            rw [hout] at hnone
            exact absurd hnone (by simp)
        case neg.none =>
          have houtIff := (checkOutputsSanity_none_iff tx.outputs 0 le_rfl
            (by norm_num)).mp hout
          by_cases h4 : scanDupPrevouts [] (tx.inputs.map Input.prevout) = true
          · rw [if_pos h4]
            constructor
            · intro h; exact absurd h (by simp)
            · intro h
              have : scanDupPrevouts [] (tx.inputs.map Input.prevout) = false := by
                rw [scanDupPrevouts_false_iff]
                exact ⟨h.2.2.2.2.2.1, by simp⟩
              rw [h4] at this
              exact absurd this (by simp)
          · rw [if_neg h4]
            have hnodup : (tx.inputs.map Input.prevout).Nodup :=
              ((scanDupPrevouts_false_iff _ []).mp (by
                rcases Bool.eq_false_or_eq_true
                  (scanDupPrevouts [] (tx.inputs.map Input.prevout)) with h | h
                · exact absurd h h4
                · exact h)).1
            have hrunlow : ∀ n : Nat,
                0 ≤ ((tx.outputs.take n).map Output.value).sum := by
              intro n
              apply List.sum_nonneg
              intro x hx
              rcases List.mem_map.mp hx with ⟨o, ho, rfl⟩
              exact (houtIff.1 o (List.mem_of_mem_take ho)).1
            by_cases h5 : tx.isCoinbase = true
            · rw [if_pos h5]
              by_cases h6 : (tx.inputs.headD nullInput).script.length < 2
                ∨ MAX_COINBASE_SCRIPTSIG_SIZE < (tx.inputs.headD nullInput).script.length
              · rw [if_pos h6]
                constructor
                · intro h; exact absurd h (by simp)
                · intro h
                  have := h.2.2.2.2.2.2.1 h5
                  omega
              · rw [if_neg h6]
                push_neg at h6
                constructor
                · intro _
                  refine ⟨h1, h2, by omega, houtIff.1, ?_, hnodup, ?_, ?_⟩
                  · exact fun n => ⟨hrunlow n, by simpa using houtIff.2 n⟩
                  · exact fun _ => ⟨by omega, by omega⟩
                  · intro hcb; rw [h5] at hcb; exact absurd hcb (by simp)
                · intro _; rfl
            · rw [if_neg h5]
              by_cases h7 : tx.inputs.any (fun i => i.prevout.isNull) = true
              · rw [if_pos h7]
                constructor
                · intro h; exact absurd h (by simp)
                · intro h
                  rcases List.any_eq_true.mp h7 with ⟨i, hi, hnull⟩
                  have := h.2.2.2.2.2.2.2 (Bool.not_eq_true _ ▸ h5) i hi
                  rw [this] at hnull
                  exact absurd hnull (by simp)
              · rw [if_neg h7]
                constructor
                · intro _
                  refine ⟨h1, h2, by omega, houtIff.1, ?_, hnodup, ?_, ?_⟩
                  · exact fun n => ⟨hrunlow n, by simpa using houtIff.2 n⟩
                  · intro hcb; exact absurd hcb h5
                  · intro _ i hi
                    rcases Bool.eq_false_or_eq_true (i.prevout.isNull) with h | h
                    · exact absurd (List.any_eq_true.mpr ⟨i, hi, h⟩) h7
                    · exact h
                · intro _; rfl

/-! ## TX.checkInputs: contextual input checks -/

/-- Modelled from the spec: a `UtxoEntry(output, height, coinbase)`
(§3 data model; coins.js is not among the sources).  `value` is the
coin's output value. -/
structure UtxoEntry where
  value : Int
  height : Nat
  coinbase : Bool
  deriving Repr, DecidableEq

/-- Modelled from the spec: the `CoinView` overlay, `OutPoint →
UtxoEntry | absent` (§3); `view.getEntry(prevout)` is application,
`view.getOutput(prevout)` yields the entry's output. -/
def CoinView : Type := Outpoint → Option UtxoEntry

/-- The input loop of `TX.checkInputs(view, height)`: first failure
among missing coin, premature coinbase spend (`height - entry.height <
COINBASE_MATURITY`, JS subtraction, hence `Int`), out-of-range value,
or out-of-range running total; on success the accumulated input
total. -/
def checkInputsGo (view : CoinView) (height : Nat) :
    List Input → Int → Except (String × Nat) Int
  | [], total => .ok total
  | i :: rest, total =>
    match view i.prevout with
    | none => .error ("bad-txns-inputs-missingorspent", 0)
    | some entry =>
      if entry.coinbase = true ∧
          (height : Int) - entry.height < (COINBASE_MATURITY : Int) then
        .error ("bad-txns-premature-spend-of-coinbase", 0)
      else if entry.value < 0 ∨ (MAX_MONEY : Int) < entry.value then
        .error ("bad-txns-inputvalues-outofrange", 100)
      else
        let total := total + entry.value
        if total < 0 ∨ (MAX_MONEY : Int) < total then
          .error ("bad-txns-inputvalues-outofrange", 100)
        else checkInputsGo view height rest total

/-- `TX.checkInputs(view, height)`: returns `[fee, reason, score]`,
with `fee = -1` on failure. -/
def TX.checkInputs (tx : TX) (view : CoinView) (height : Nat) :
    Int × String × Nat :=
  match checkInputsGo view height tx.inputs 0 with
  | .error (r, s) => (-1, r, s)
  | .ok total =>
      let value := tx.getOutputValue
      if total < value then (-1, "bad-txns-in-belowout", 100)
      else
        let fee := total - value
        if fee < 0 then (-1, "bad-txns-fee-negative", 100)
        else if (MAX_MONEY : Int) < fee then (-1, "bad-txns-fee-outofrange", 100)
        else (fee, "valid", 0)

/-- Total resolved input value of a transaction under a view (missing
coins counting zero; used only under all-resolve hypotheses). -/
def inputValue (view : CoinView) (tx : TX) : Int :=
  (tx.inputs.map (fun i =>
    match view i.prevout with
    | some e => e.value
    | none => 0)).sum

theorem checkInputsGo_cons_none (view : CoinView) (height : Nat) (i : Input)
    (rest : List Input) (t : Int) (hv : view i.prevout = none) :
    checkInputsGo view height (i :: rest) t
      = .error ("bad-txns-inputs-missingorspent", 0) := by
  rw [checkInputsGo, hv]

theorem checkInputsGo_cons_some (view : CoinView) (height : Nat) (i : Input)
    (rest : List Input) (t : Int) (entry : UtxoEntry)
    (hv : view i.prevout = some entry) :
    checkInputsGo view height (i :: rest) t =
      if entry.coinbase = true ∧
          (height : Int) - entry.height < (COINBASE_MATURITY : Int) then
        .error ("bad-txns-premature-spend-of-coinbase", 0)
      else if entry.value < 0 ∨ (MAX_MONEY : Int) < entry.value then
        .error ("bad-txns-inputvalues-outofrange", 100)
      else if t + entry.value < 0 ∨ (MAX_MONEY : Int) < t + entry.value then
        .error ("bad-txns-inputvalues-outofrange", 100)
      else checkInputsGo view height rest (t + entry.value) := by
  rw [checkInputsGo, hv]

theorem checkInputsGo_append (view : CoinView) (height : Nat) :
    ∀ (l₁ l₂ : List Input) (t : Int),
      checkInputsGo view height (l₁ ++ l₂) t
        = match checkInputsGo view height l₁ t with
          | .ok t' => checkInputsGo view height l₂ t'
          | .error e => .error e := by
  intro l₁
  induction l₁ with
  | nil => intro l₂ t; rfl
  | cons i rest ih =>
    intro l₂ t
    rw [List.cons_append]
    rcases hv : view i.prevout with _ | entry
    · rw [checkInputsGo_cons_none view height i (rest ++ l₂) t hv,
        checkInputsGo_cons_none view height i rest t hv]
    · rw [checkInputsGo_cons_some view height i (rest ++ l₂) t entry hv,
        checkInputsGo_cons_some view height i rest t entry hv]
      by_cases h1 : entry.coinbase = true ∧
          (height : Int) - entry.height < (COINBASE_MATURITY : Int)
      · rw [if_pos h1, if_pos h1]
      · rw [if_neg h1, if_neg h1]
        by_cases h2 : entry.value < 0 ∨ (MAX_MONEY : Int) < entry.value
        · rw [if_pos h2, if_pos h2]
        · rw [if_neg h2, if_neg h2]
          by_cases h3 : t + entry.value < 0 ∨ (MAX_MONEY : Int) < t + entry.value
          · rw [if_pos h3, if_pos h3]
          · rw [if_neg h3, if_neg h3]
            exact ih l₂ (t + entry.value)

theorem checkInputsGo_error_of_bad (view : CoinView) (height : Nat) :
    ∀ (l : List Input) (t : Int),
      (∃ i ∈ l, ∃ e, view i.prevout = some e ∧
        ((e.coinbase = true ∧ (height : Int) - e.height < (COINBASE_MATURITY : Int))
          ∨ e.value < 0 ∨ (MAX_MONEY : Int) < e.value)) →
      ∃ err, checkInputsGo view height l t = .error err := by
  intro l
  induction l with
  | nil => intro t h; simp at h
  | cons i rest ih =>
    intro t ⟨j, hj, e, he, hbad⟩
    rcases List.mem_cons.mp hj with rfl | hjrest
    · rw [checkInputsGo_cons_some view height j rest t e he]
      by_cases h1 : e.coinbase = true ∧
          (height : Int) - e.height < (COINBASE_MATURITY : Int)
      · rw [if_pos h1]; exact ⟨_, rfl⟩
      · rw [if_neg h1]
        have h2 : e.value < 0 ∨ (MAX_MONEY : Int) < e.value := by tauto
        rw [if_pos h2]
        exact ⟨_, rfl⟩
    · rcases hv : view i.prevout with _ | entry
      · rw [checkInputsGo_cons_none view height i rest t hv]
        exact ⟨_, rfl⟩
      · rw [checkInputsGo_cons_some view height i rest t entry hv]
        by_cases h1 : entry.coinbase = true ∧
            (height : Int) - entry.height < (COINBASE_MATURITY : Int)
        · rw [if_pos h1]; exact ⟨_, rfl⟩
        · rw [if_neg h1]
          by_cases h2 : entry.value < 0 ∨ (MAX_MONEY : Int) < entry.value
          · rw [if_pos h2]; exact ⟨_, rfl⟩
          · rw [if_neg h2]
            by_cases h3 : t + entry.value < 0 ∨
                (MAX_MONEY : Int) < t + entry.value
            · rw [if_pos h3]; exact ⟨_, rfl⟩
            · rw [if_neg h3]
              exact ih _ ⟨j, hjrest, e, he, hbad⟩

theorem checkInputsGo_ok_total (view : CoinView) (height : Nat) :
    ∀ (l : List Input) (t total : Int),
      checkInputsGo view height l t = .ok total →
      total = t + (l.map (fun i =>
        match view i.prevout with
        | some e => e.value
        | none => 0)).sum := by
  intro l
  induction l with
  | nil =>
    intro t total h
    simp [checkInputsGo] at h
    simp [h]
  | cons i rest ih =>
    intro t total h
    rcases hv : view i.prevout with _ | entry
    · rw [checkInputsGo_cons_none view height i rest t hv] at h
      exact absurd h (by simp)
    · rw [checkInputsGo_cons_some view height i rest t entry hv] at h
      by_cases h1 : entry.coinbase = true ∧
          (height : Int) - entry.height < (COINBASE_MATURITY : Int)
      · rw [if_pos h1] at h; exact absurd h (by simp)
      · rw [if_neg h1] at h
        by_cases h2 : entry.value < 0 ∨ (MAX_MONEY : Int) < entry.value
        · rw [if_pos h2] at h; exact absurd h (by simp)
        · rw [if_neg h2] at h
          by_cases h3 : t + entry.value < 0 ∨
              (MAX_MONEY : Int) < t + entry.value
          · rw [if_pos h3] at h; exact absurd h (by simp)
          · rw [if_neg h3] at h
            have := ih _ _ h
            simp only [List.map_cons, List.sum_cons, hv]
            omega

theorem checkInputsGo_error_reason (view : CoinView) (height : Nat) :
    ∀ (l : List Input) (t : Int) (r : String) (s : Nat),
      checkInputsGo view height l t = .error (r, s) → r ≠ "valid" := by
  intro l
  induction l with
  | nil => intro t r s h; exact absurd h (by simp [checkInputsGo])
  | cons i rest ih =>
    intro t r s h
    rcases hv : view i.prevout with _ | entry
    · rw [checkInputsGo_cons_none view height i rest t hv] at h
      simp at h
      rw [← h.1]
      decide
    · rw [checkInputsGo_cons_some view height i rest t entry hv] at h
      by_cases h1 : entry.coinbase = true ∧
          (height : Int) - entry.height < (COINBASE_MATURITY : Int)
      · rw [if_pos h1] at h
        simp at h
        rw [← h.1]
        decide
      · rw [if_neg h1] at h
        by_cases h2 : entry.value < 0 ∨ (MAX_MONEY : Int) < entry.value
        · rw [if_pos h2] at h
          simp at h
          rw [← h.1]
          decide
        · rw [if_neg h2] at h
          by_cases h3 : t + entry.value < 0 ∨
              (MAX_MONEY : Int) < t + entry.value
          · rw [if_pos h3] at h
            simp at h
            rw [← h.1]
            decide
          · rw [if_neg h3] at h
            exact ih _ _ _ h

theorem checkInputs_error (tx : TX) (view : CoinView) (height : Nat)
    (r : String) (s : Nat)
    (h : checkInputsGo view height tx.inputs 0 = .error (r, s)) :
    tx.checkInputs view height = (-1, r, s) := by
  unfold TX.checkInputs
  rw [h]

theorem checkInputs_ok (tx : TX) (view : CoinView) (height : Nat) (total : Int)
    (h : checkInputsGo view height tx.inputs 0 = .ok total) :
    tx.checkInputs view height =
      if total < tx.getOutputValue then ((-1 : Int), "bad-txns-in-belowout", 100)
      else if total - tx.getOutputValue < 0 then
        (-1, "bad-txns-fee-negative", 100)
      else if (MAX_MONEY : Int) < total - tx.getOutputValue then
        (-1, "bad-txns-fee-outofrange", 100)
      else (total - tx.getOutputValue, "valid", 0) := by
  unfold TX.checkInputs
  rw [h]

/-- First prevout of the C4 counterexample transaction. -/
def c4Prev0 : Outpoint := ⟨List.replicate 32 1, 0⟩

/-- Second prevout of the C4 counterexample transaction. -/
def c4Prev1 : Outpoint := ⟨List.replicate 32 2, 0⟩

/-- A non-coinbase coin with the out-of-range value `-1`. -/
def c4BadEntry : UtxoEntry := ⟨-1, 0, false⟩

/-- A coinbase coin created at height 0. -/
def c4CbEntry : UtxoEntry := ⟨50, 0, true⟩

/-- View resolving both prevouts of the counterexample transaction. -/
def c4View : CoinView := fun p =>
  if p = c4Prev0 then some c4BadEntry
  else if p = c4Prev1 then some c4CbEntry
  else none

/-- Two-input transaction: first input spends the bad-value coin,
second spends the immature coinbase. -/
def c4Tx : TX := ⟨1, [⟨c4Prev0, [], 0⟩, ⟨c4Prev1, [], 0⟩], [⟨1, []⟩], 0⟩

/-- C4, the claim as stated, is false at a concrete input: the second
input spends an immature coinbase (spend height 50, source height 0),
but the first input's coin has the out-of-range value `-1`, so
`checkInputs` reports `bad-txns-inputvalues-outofrange`, not
`bad-txns-premature-spend-of-coinbase`. -/
theorem C4_counterexample :
    (∃ i ∈ c4Tx.inputs, c4View i.prevout = some c4CbEntry) ∧
    c4CbEntry.coinbase = true ∧
    (50 : Int) - c4CbEntry.height < (COINBASE_MATURITY : Int) ∧
    c4Tx.checkInputs c4View 50 = (-1, "bad-txns-inputvalues-outofrange", 100) ∧
    ¬ c4Tx.checkInputs c4View 50
        = (-1, "bad-txns-premature-spend-of-coinbase", 0) := by
  decide

/-- C4 (amended): an immature coinbase spend always makes
`TX.checkInputs` fail (`fee = -1`), and the reason is
`bad-txns-premature-spend-of-coinbase` when every earlier input passes
its own per-input checks; an out-of-range input value always makes it
fail; when every prevout resolves and the inputs fall short of the
outputs it fails; and on success the returned fee is exactly
`sum(inputs) - sum(outputs)` and lies in `[0, MAX_MONEY]`. -/
theorem C4_amended (view : CoinView) (tx : TX) (height : Nat) :
    ((∃ i ∈ tx.inputs, ∃ e, view i.prevout = some e ∧ e.coinbase = true ∧
        (height : Int) - e.height < (COINBASE_MATURITY : Int)) →
      (tx.checkInputs view height).1 = -1) ∧
    (∀ pre i rest, tx.inputs = pre ++ i :: rest →
      (∃ t, checkInputsGo view height pre 0 = .ok t) →
      (∃ e, view i.prevout = some e ∧ e.coinbase = true ∧
        (height : Int) - e.height < (COINBASE_MATURITY : Int)) →
      tx.checkInputs view height
        = (-1, "bad-txns-premature-spend-of-coinbase", 0)) ∧
    ((∃ i ∈ tx.inputs, ∃ e, view i.prevout = some e ∧
        (e.value < 0 ∨ (MAX_MONEY : Int) < e.value)) →
      (tx.checkInputs view height).1 = -1) ∧
    ((∀ i ∈ tx.inputs, ∃ e, view i.prevout = some e) →
      inputValue view tx < tx.getOutputValue →
      (tx.checkInputs view height).1 = -1) ∧
    ((tx.checkInputs view height).2.1 = "valid" →
      (tx.checkInputs view height).1 = inputValue view tx - tx.getOutputValue ∧
      0 ≤ (tx.checkInputs view height).1 ∧
      (tx.checkInputs view height).1 ≤ (MAX_MONEY : Int)) := by
  refine ⟨?_, ?_, ?_, ?_, ?_⟩
  · intro ⟨i, hi, e, he, hcb, him⟩
    obtain ⟨⟨r, s⟩, herr⟩ := checkInputsGo_error_of_bad view height tx.inputs 0
      ⟨i, hi, e, he, Or.inl ⟨hcb, him⟩⟩
    rw [checkInputs_error tx view height r s herr]
  · intro pre i rest heq ⟨t, hpre⟩ ⟨e, he, hcb, him⟩
    have hgo : checkInputsGo view height tx.inputs 0
        = .error ("bad-txns-premature-spend-of-coinbase", 0) := by
      rw [heq, checkInputsGo_append view height pre (i :: rest) 0, hpre]
      show checkInputsGo view height (i :: rest) t = _
      rw [checkInputsGo_cons_some view height i rest t e he, if_pos ⟨hcb, him⟩]
    exact checkInputs_error tx view height _ _ hgo
  · intro ⟨i, hi, e, he, hval⟩
    obtain ⟨⟨r, s⟩, herr⟩ := checkInputsGo_error_of_bad view height tx.inputs 0
      ⟨i, hi, e, he, Or.inr hval⟩
    rw [checkInputs_error tx view height r s herr]
  · intro _ hlt
    rcases hgo : checkInputsGo view height tx.inputs 0 with ⟨r, s⟩ | total
    · rw [checkInputs_error tx view height r s hgo]
    · have htot : total = inputValue view tx := by
        have := checkInputsGo_ok_total view height tx.inputs 0 total hgo
        simpa [inputValue] using this
      rw [checkInputs_ok tx view height total hgo, if_pos (htot ▸ hlt)]
  · intro hvalid
    rcases hgo : checkInputsGo view height tx.inputs 0 with ⟨r, s⟩ | total
    · rw [checkInputs_error tx view height r s hgo] at hvalid ⊢
      exact absurd hvalid (checkInputsGo_error_reason view height tx.inputs 0 r s hgo)
    · have htot : total = inputValue view tx := by
        have := checkInputsGo_ok_total view height tx.inputs 0 total hgo
        simpa [inputValue] using this
      rw [checkInputs_ok tx view height total hgo] at hvalid ⊢
      by_cases hbelow : total < tx.getOutputValue
      · rw [if_pos hbelow] at hvalid
        exact absurd hvalid (by decide)
      · rw [if_neg hbelow] at hvalid ⊢
        rw [if_neg (by omega : ¬ total - tx.getOutputValue < 0)] at hvalid ⊢
        by_cases hbig : (MAX_MONEY : Int) < total - tx.getOutputValue
        · rw [if_pos hbig] at hvalid
          exact absurd hvalid (by decide)
        · rw [if_neg hbig]
          exact ⟨by rw [htot], by omega, by omega⟩

/-- View for the C4 witness: a single immature coinbase coin. -/
def c4wView : CoinView := fun p =>
  if p = c4Prev1 then some c4CbEntry else none

/-- Single-input transaction spending the immature coinbase. -/
def c4wTx : TX := ⟨1, [⟨c4Prev1, [], 0⟩], [⟨1, []⟩], 0⟩

theorem C4_witness :
    c4wTx.checkInputs c4wView 50
      = (-1, "bad-txns-premature-spend-of-coinbase", 0) :=
  (C4_amended c4wView c4wTx 50).2.1 [] ⟨c4Prev1, [], 0⟩ [] rfl ⟨0, rfl⟩
    ⟨c4CbEntry, by decide, by decide, by decide⟩

/-! ## Serialization writers (spec §4.A wire format)

Modelled from the spec: the bufio writer primitives (`writeU32`,
`writeI64`, `writeVarint`, `writeVarBytes`) and the Outpoint/Output/
Input `toWriter` framing, little-endian throughout. -/

/-- `k` little-endian bytes of `n`. -/
def leBytes : Nat → Nat → List Nat
  | 0, _ => []
  | k+1, n => n % 256 :: leBytes k (n / 256)

/-- `bw.writeI64(v)`: eight little-endian bytes of the 64-bit
two's-complement representation. -/
def writeI64 (v : Int) : List Nat := leBytes 8 (v % 2^64).toNat

/-- `bw.writeVarint(n)` (spec §4.A): `<0xFD` → one byte; `0xFD`+u16;
`0xFE`+u32; `0xFF`+u64. -/
def writeVarint (n : Nat) : List Nat :=
  if n < 0xfd then [n]
  else if n ≤ 0xffff then 0xfd :: leBytes 2 n
  else if n ≤ 0xffffffff then 0xfe :: leBytes 4 n
  else 0xff :: leBytes 8 n

/-- `bw.writeVarBytes(b)`: varint length prefix then the bytes. -/
def writeVarBytes (b : List Nat) : List Nat := writeVarint b.length ++ b

/-- Modelled from the spec: `Outpoint.toWriter` — 32-byte hash, 4-byte
little-endian index. -/
def Outpoint.toWriter (p : Outpoint) : List Nat := p.hash ++ leBytes 4 p.index

/-- Modelled from the spec: `Output.toWriter` — 8-byte value,
varint-prefixed script. -/
def Output.toWriter (o : Output) : List Nat :=
  writeI64 o.value ++ writeVarBytes o.script

/-- Modelled from the spec: `Input.toWriter` — outpoint,
varint-prefixed script, 4-byte sequence. -/
def Input.toWriter (i : Input) : List Nat :=
  i.prevout.toWriter ++ writeVarBytes i.script ++ leBytes 4 i.sequence

/-- `TX.toRaw()` via `writeNormal`: version, varint-counted inputs and
outputs, locktime. -/
def TX.toRaw (tx : TX) : List Nat :=
  leBytes 4 tx.version ++ writeVarint tx.inputs.length
    ++ (tx.inputs.map Input.toWriter).flatten
    ++ writeVarint tx.outputs.length
    ++ (tx.outputs.map Output.toWriter).flatten
    ++ leBytes 4 tx.locktime

/-! ## Legacy signature hashing (`TX.signatureHashV0`) -/

/-- Modelled from the spec: `Script.hashType` (script/common.js is not
among the sources; these are the standard Bitcoin constants the spec's
§4.C relies on). -/
def SIGHASH_ALL : Nat := 1

/-- See `SIGHASH_ALL`. -/
def SIGHASH_NONE : Nat := 2

/-- See `SIGHASH_ALL`. -/
def SIGHASH_SINGLE : Nat := 3

/-- See `SIGHASH_ALL`. -/
def SIGHASH_ANYONECANPAY : Nat := 0x80

/-- Output placeholder for the impossible `outputs[index]` access in
the `SINGLE` branch (guarded by the early out-of-range return). -/
def nullOutput : Output := ⟨0, []⟩

/-- `TX.signatureHashV0(index, prev, type)`: the legacy O(n²) sighash.
`H` stands for the external `hash256.digest`; `remSep` for
`prev.removeSeparators()` of script.js (not among the sources), which
strips `OP_CODESEPARATOR` from the previous output script.  Returns the
constant `01 00…00` when `SINGLE` is requested for an out-of-range
input index; otherwise hashes the modified serialization with the
4-byte hashtype appended. -/
def signatureHashV0 (H : List Nat → List Nat) (remSep : List Nat → List Nat)
    (tx : TX) (index : Nat) (prev : List Nat) (type : Nat) : List Nat :=
  if type &&& 0x1f = SIGHASH_SINGLE ∧ tx.outputs.length ≤ index then
    1 :: List.replicate 31 0
  else
    let prev := remSep prev
    let inputsPart :=
      if type &&& SIGHASH_ANYONECANPAY ≠ 0 then
        let input := tx.inputs.getD index nullInput
        writeVarint 1 ++ input.prevout.toWriter ++ writeVarBytes prev
          ++ leBytes 4 input.sequence
      else
        writeVarint tx.inputs.length
          ++ ((List.range tx.inputs.length).map (fun i =>
            let input := tx.inputs.getD i nullInput
            input.prevout.toWriter ++
              (if i = index then writeVarBytes prev ++ leBytes 4 input.sequence
               else writeVarint 0 ++
                 (if type &&& 0x1f = SIGHASH_NONE ∨ type &&& 0x1f = SIGHASH_SINGLE
                  then leBytes 4 0 else leBytes 4 input.sequence)))).flatten
    let outputsPart :=
      if type &&& 0x1f = SIGHASH_NONE then writeVarint 0
      else if type &&& 0x1f = SIGHASH_SINGLE then
        writeVarint (index + 1)
          ++ (List.replicate index (writeI64 (-1) ++ writeVarint 0)).flatten
          ++ (tx.outputs.getD index nullOutput).toWriter
      else
        writeVarint tx.outputs.length ++ (tx.outputs.map Output.toWriter).flatten
    H (leBytes 4 tx.version ++ inputsPart ++ outputsPart
        ++ leBytes 4 tx.locktime ++ leBytes 4 type)

/-- C8: for `SINGLE` with an out-of-range input index, the legacy
sighash is the 32-byte constant `01 00…00`, independent of the hash
function, the separator stripping, the transaction contents and the
previous script. -/
theorem C8_sighash_single_oob (H remSep : List Nat → List Nat) (tx : TX)
    (index : Nat) (prev : List Nat) (type : Nat)
    (h1 : type &&& 0x1f = SIGHASH_SINGLE) (h2 : tx.outputs.length ≤ index) :
    signatureHashV0 H remSep tx index prev type = 1 :: List.replicate 31 0 := by
  unfold signatureHashV0
  rw [if_pos ⟨h1, h2⟩]

theorem C8_witness :
    signatureHashV0 (fun _ => []) (fun s => s) c4wTx 1 [] 3
      = 1 :: List.replicate 31 0 :=
  C8_sighash_single_oob (fun _ => []) (fun s => s) c4wTx 1 [] 3
    (by decide) (by decide)

/-! ## Block body checks (`Block.checkBody`) -/

/-- A block as `Block.checkBody` sees it: the header's merkle root and
the transaction list.  The remaining 80-byte header enters only through
the serialized size. -/
structure Block where
  merkleRoot : List Nat
  txs : List TX

/-- `Block.getSize()` via `getNormalSizes()`: 80-byte header, varint
transaction count, transactions. -/
def Block.getSize (b : Block) : Nat :=
  80 + sizeVarint b.txs.length + (b.txs.map TX.getSize).sum

/-- Modelled from the spec: one level of the external
`merkle.createRoot` of bcrypto — combine adjacent pairs with `H`,
duplicating an odd last node; the level is malleated when its last
complete pair has identical siblings (spec §3: "no two sibling leaves
identical except when the tree legitimately duplicates an odd last
leaf"). -/
def merkleLevel (H : List Nat → List Nat) :
    List (List Nat) → List (List Nat) × Bool
  | [] => ([], false)
  | [x] => ([H (x ++ x)], false)
  | x :: y :: rest =>
    let p := merkleLevel H rest
    (H (x ++ y) :: p.1, p.2 || (rest.isEmpty && decide (x = y)))

/-- Iterate `merkleLevel` down to the root (the fuel, one unit per
level, is amply covered by the leaf count). -/
def createRootGo (H : List Nat → List Nat) :
    Nat → List (List Nat) → Bool → List Nat × Bool
  | _, [root], m => (root, m)
  | 0, _, m => (List.replicate 32 0, m)
  | fuel+1, ls, m =>
    let p := merkleLevel H ls
    createRootGo H fuel p.1 (m || p.2)

/-- Modelled from the spec: `merkle.createRoot(hash256, leaves)` —
root of the double-SHA-256 binary tree with odd-sibling duplication,
plus the malleation flag. -/
def createRoot (H : List Nat → List Nat) (leaves : List (List Nat)) :
    List Nat × Bool :=
  match leaves with
  | [] => (List.replicate 32 0, false)
  | _ => createRootGo H leaves.length leaves false

/-- `Block.createMerkleRoot()`: root over the transaction hashes
(`tx.hash()` is `H` of the serialization); `null` when malleated. -/
def Block.createMerkleRoot (H : List Nat → List Nat) (b : Block) :
    Option (List Nat) :=
  let p := createRoot H (b.txs.map (fun tx => H tx.toRaw))
  if p.2 then none else some p.1

/-- `TX.getLegacySigops()`: sigops of every input and output script,
counted by the script engine's `Script.getSigops(false)` — script.js is
not among the sources, so the per-script counter is a parameter. -/
def getLegacySigops (sigopsF : List Nat → Nat) (tx : TX) : Nat :=
  (tx.inputs.map (fun i => sigopsF i.script)).sum
    + (tx.outputs.map (fun o => sigopsF o.script)).sum

/-- Transaction placeholder for the impossible `txs[0]` access (guarded
by the emptiness check). -/
def nullTx : TX := ⟨1, [], [], 0⟩

/-- The transaction loop of `Block.checkBody()`: first failure among a
non-first coinbase, a sanity failure, or the running legacy sigop count
exceeding `maxBlockSigops(size)`. -/
def checkBodyTxs (sigopsF : List Nat → Nat) (size : Nat) :
    List TX → Nat → Nat → Option (Bool × String × Nat)
  | [], _, _ => none
  | tx :: rest, i, sig =>
    if 0 < i ∧ tx.isCoinbase = true then some (false, "bad-cb-multiple", 100)
    else
      let c := tx.checkSanity
      if c.1 = false then some c
      else
        let sig := sig + getLegacySigops sigopsF tx
        if maxBlockSigops size < sig then some (false, "bad-blk-sigops", 100)
        else checkBodyTxs sigopsF size rest (i+1) sig

/-- `Block.checkBody()`: non-contextual block verification — length and
size caps, coinbase at index 0 only, merkle root, per-transaction
sanity, sigop cap. -/
def Block.checkBody (H : List Nat → List Nat) (sigopsF : List Nat → Nat)
    (b : Block) : Bool × String × Nat :=
  if b.txs.length = 0 ∨ MAX_FORK_BLOCK_SIZE / 10 < b.txs.length
      ∨ MAX_FORK_BLOCK_SIZE < b.getSize then
    (false, "bad-blk-length", 100)
  else if b.txs.length = 0 ∨ (b.txs.headD nullTx).isCoinbase = false then
    (false, "bad-cb-missing", 100)
  else
    match b.createMerkleRoot H with
    | none => (false, "bad-txns-duplicate", 100)
    | some root =>
      if b.merkleRoot ≠ root then (false, "bad-txnmrklroot", 100)
      else
        match checkBodyTxs sigopsF b.getSize b.txs 0 0 with
        | some res => res
        | none => (true, "valid", 0)

theorem sizeVarint_pos (n : Nat) : 1 ≤ sizeVarint n := by
  unfold sizeVarint
  split_ifs <;> omega

theorem input_getSize_ge (i : Input) : 41 ≤ i.getSize := by
  unfold Input.getSize
  have := sizeVarint_pos i.script.length
  omega

theorem output_getSize_ge (o : Output) : 9 ≤ o.getSize := by
  unfold Output.getSize
  have := sizeVarint_pos o.script.length
  omega

theorem sum_ge_of_all_ge : ∀ (l : List Nat) (c : Nat),
    (∀ x ∈ l, c ≤ x) → c * l.length ≤ l.sum := by
  intro l
  induction l with
  | nil => intro c _; simp
  | cons x rest ih =>
    intro c hc
    have h1 := hc x (by simp)
    have h2 := ih c (fun y hy => hc y (List.mem_cons_of_mem _ hy))
    simp only [List.sum_cons, List.length_cons]
    calc c * (rest.length + 1) = c * rest.length + c := by ring
      _ ≤ rest.sum + x := by omega
      _ = x + rest.sum := by omega

/-- A sanity-accepted transaction serializes to at least 60 bytes (it
has an input and an output). -/
theorem txSize_ge_of_sane (tx : TX) (h : tx.checkSanity.1 = true) :
    60 ≤ tx.getSize := by
  have hin : tx.inputs.length ≠ 0 := by
    intro h0
    rw [TX.checkSanity, if_pos h0] at h
    exact absurd h (by simp)
  have hout : tx.outputs.length ≠ 0 := by
    intro h0
    rw [TX.checkSanity] at h
    rw [if_neg hin, if_pos h0] at h
    exact absurd h (by simp)
  rcases hi : tx.inputs with _ | ⟨i0, irest⟩
  · exact absurd (by rw [hi]; rfl) hin
  rcases ho : tx.outputs with _ | ⟨o0, orest⟩
  · exact absurd (by rw [ho]; rfl) hout
  unfold TX.getSize
  rw [hi, ho]
  simp only [List.map_cons, List.sum_cons]
  have h1 := input_getSize_ge i0
  have h2 := output_getSize_ge o0
  have h3 := sizeVarint_pos (i0 :: irest).length
  have h4 := sizeVarint_pos (o0 :: orest).length
  omega

theorem checkBodyTxs_some_false (sigopsF : List Nat → Nat) (size : Nat) :
    ∀ (l : List TX) (i sig : Nat) (res : Bool × String × Nat),
      checkBodyTxs sigopsF size l i sig = some res → res.1 = false := by
  intro l
  induction l with
  | nil => intro i sig res h; exact absurd h (by simp [checkBodyTxs])
  | cons tx rest ih =>
    intro i sig res h
    rw [checkBodyTxs] at h
    by_cases h1 : 0 < i ∧ tx.isCoinbase = true
    · rw [if_pos h1] at h
      simp at h
      rw [← h]
    · rw [if_neg h1] at h
      by_cases h2 : tx.checkSanity.1 = false
      · rw [if_pos h2] at h
        simp at h
        rw [← h]
        exact h2
      · rw [if_neg h2] at h
        by_cases h3 : maxBlockSigops size < sig + getLegacySigops sigopsF tx
        · rw [if_pos h3] at h
          simp at h
          rw [← h]
        · rw [if_neg h3] at h
          exact ih _ _ _ h

theorem checkBodyTxs_none_sane (sigopsF : List Nat → Nat) (size : Nat) :
    ∀ (l : List TX) (i sig : Nat),
      checkBodyTxs sigopsF size l i sig = none →
      ∀ tx ∈ l, tx.checkSanity.1 = true := by
  intro l
  induction l with
  | nil => intro i sig _ tx htx; exact absurd htx (by simp)
  | cons tx0 rest ih =>
    intro i sig h tx htx
    rw [checkBodyTxs] at h
    by_cases h1 : 0 < i ∧ tx0.isCoinbase = true
    · rw [if_pos h1] at h; exact absurd h (by simp)
    · rw [if_neg h1] at h
      by_cases h2 : tx0.checkSanity.1 = false
      · rw [if_pos h2] at h; exact absurd h (by simp)
      · rw [if_neg h2] at h
        by_cases h3 : maxBlockSigops size < sig + getLegacySigops sigopsF tx0
        · rw [if_pos h3] at h; exact absurd h (by simp)
        · rw [if_neg h3] at h
          rcases List.mem_cons.mp htx with rfl | hmem
          · rcases Bool.eq_false_or_eq_true tx.checkSanity.1 with hb | hb
            · exact hb
            · exact absurd hb h2
          · exact ih _ _ h tx hmem

/-- C6: a block accepted by `checkBody` is at most `MAX_FORK_BLOCK_SIZE`
bytes, and its transaction count is at most a tenth of its own
serialized size (every sanity-accepted transaction occupies at least 60
bytes). -/
theorem C6_checkBody_size (H : List Nat → List Nat) (sigopsF : List Nat → Nat)
    (b : Block) (h : (b.checkBody H sigopsF).1 = true) :
    b.getSize ≤ MAX_FORK_BLOCK_SIZE ∧ b.txs.length ≤ b.getSize / 10 := by
  rw [Block.checkBody] at h
  by_cases h1 : b.txs.length = 0 ∨ MAX_FORK_BLOCK_SIZE / 10 < b.txs.length
      ∨ MAX_FORK_BLOCK_SIZE < b.getSize
  · rw [if_pos h1] at h
    exact absurd h (by simp)
  · rw [if_neg h1] at h
    push_neg at h1
    refine ⟨by omega, ?_⟩
    by_cases h2 : b.txs.length = 0 ∨ (b.txs.headD nullTx).isCoinbase = false
    · rw [if_pos h2] at h
      exact absurd h (by simp)
    · rw [if_neg h2] at h
      rcases hmr : b.createMerkleRoot H with _ | root <;> rw [hmr] at h
      · exact absurd h (by simp)
      · replace h : (if b.merkleRoot ≠ root then ((false : Bool), "bad-txnmrklroot", 100)
            else match checkBodyTxs sigopsF b.getSize b.txs 0 0 with
              | some res => res
              | none => ((true : Bool), "valid", 0)).1 = true := h
        by_cases h3 : b.merkleRoot ≠ root
        · rw [if_pos h3] at h
          exact absurd h (by simp)
        · rw [if_neg h3] at h
          rcases hloop : checkBodyTxs sigopsF b.getSize b.txs 0 0
            with _ | res <;> rw [hloop] at h
          case neg.some =>
            have hres : res.1 = true := h
            have := checkBodyTxs_some_false sigopsF b.getSize b.txs 0 0 res hloop
            rw [hres] at this
            exact absurd this (by simp)
          case neg.none =>
            have hsane := checkBodyTxs_none_sane sigopsF b.getSize b.txs 0 0 hloop
            have hsum : 60 * b.txs.length ≤ (b.txs.map TX.getSize).sum := by
              have := sum_ge_of_all_ge (b.txs.map TX.getSize) 60 ?_
              · simpa using this
              · intro x hx
                rcases List.mem_map.mp hx with ⟨tx, htx, rfl⟩
                exact txSize_ge_of_sane tx (hsane tx htx)
            rw [Nat.le_div_iff_mul_le (by norm_num : (0:Nat) < 10)]
            have : 80 + sizeVarint b.txs.length
                + (b.txs.map TX.getSize).sum = b.getSize := rfl
            omega

/-- Concrete single-coinbase block for the C6 witness. -/
def c6Block : Block :=
  ⟨List.replicate 32 7, [⟨1, [⟨⟨List.replicate 32 0, 0xffffffff⟩, [0, 0], 0⟩],
    [⟨0, []⟩], 0⟩]⟩

theorem C6_witness :
    c6Block.getSize ≤ MAX_FORK_BLOCK_SIZE ∧
      c6Block.txs.length ≤ c6Block.getSize / 10 :=
  C6_checkBody_size (fun _ => List.replicate 32 7) (fun _ => 0) c6Block
    (by decide)

/-! ## Address string parsing (`Address.fromString`, `isMixedCase`) -/

/-- ASCII digit `0`–`9`. -/
def isDigitB (c : Nat) : Bool := decide (0x30 ≤ c ∧ c ≤ 0x39)

/-- ASCII lowercase letter `a`–`z`. -/
def isLowerB (c : Nat) : Bool := decide (0x61 ≤ c ∧ c ≤ 0x7a)

/-- ASCII uppercase letter `A`–`Z`. -/
def isUpperB (c : Nat) : Bool := decide (0x41 ≤ c ∧ c ≤ 0x5a)

/-- The characters the `isMixedCase` scan accepts without asserting:
digits, `:`, letters. -/
def validChar (c : Nat) : Bool :=
  isDigitB c || decide (c = 0x3a) || isLowerB c || isUpperB c

/-- The `isMixedCase(str)` helper of address.js, on char codes, with
the two case-seen flags as accumulator.  Digits and `:` are skipped;
a character with bit 5 set must be a lowercase letter and one with bit
5 clear an uppercase letter, otherwise `assert` throws (`.error ()`);
the scan returns `true` as soon as both cases have been seen. -/
def isMixedCase : List Nat → Bool → Bool → Except Unit Bool
  | [], _, _ => .ok false
  | ch :: rest, lower, upper =>
    if 0x30 ≤ ch ∧ ch ≤ 0x39 then isMixedCase rest lower upper
    else if ch = 0x3a then isMixedCase rest lower upper
    else if ch &&& 32 ≠ 0 then
      if ¬ (0x61 ≤ ch ∧ ch ≤ 0x7a) then .error ()
      else if upper then .ok true else isMixedCase rest true upper
    else
      if ¬ (0x41 ≤ ch ∧ ch ≤ 0x5a) then .error ()
      else if lower then .ok true else isMixedCase rest lower true

/-- How `Address.fromString` can fail: an `assert` (length bounds or
the mixed-case scan, raised outside the try/catch) or a decoder throw
(`fromBase58`, or the cashaddr fallback's `fromBase58`). -/
inductive AddrFailure where
  | assertFail
  | thrown
  deriving DecidableEq, Repr

/-- `Address.fromString(addr)` with the two decoders abstracted
(`fromBase58` and `fromCashAddr` live in address.js but lean on the
external bstring codecs; `none` models a decoder throw).  Mixed case
dispatches to Base58 alone; otherwise cashaddr is tried with a Base58
fallback on throw. -/
def fromString {α : Type} (b58 ca : List Nat → Option α)
    (addr : List Nat) : Except AddrFailure α :=
  if addr.length = 0 then .error .assertFail
  else if 100 < addr.length then .error .assertFail
  else match isMixedCase addr false false with
  | .error () => .error .assertFail
  | .ok true =>
    match b58 addr with
    | some a => .ok a
    | none => .error .thrown
  | .ok false =>
    match ca addr with
    | some a => .ok a
    | none =>
      match b58 addr with
      | some a => .ok a
      | none => .error .thrown

theorem lower_bit (ch : Nat) (h1 : 0x61 ≤ ch) (h2 : ch ≤ 0x7a) :
    ch &&& 32 ≠ 0 := by
  interval_cases ch <;> decide

theorem upper_bit (ch : Nat) (h1 : 0x41 ≤ ch) (h2 : ch ≤ 0x5a) :
    ch &&& 32 = 0 := by
  interval_cases ch <;> decide

/-- On strings of valid characters, the scan reports mixed case exactly
when (beyond the accumulated flags) both letter cases occur; it never
reports it from a state that already has both flags. -/
theorem scan_valid : ∀ (s : List Nat) (lower upper : Bool),
    (∀ c ∈ s, validChar c = true) →
    ¬ (lower = true ∧ upper = true) →
    (isMixedCase s lower upper = .ok true ↔
      (lower = true ∨ ∃ c ∈ s, isLowerB c = true) ∧
      (upper = true ∨ ∃ c ∈ s, isUpperB c = true)) := by
  intro s
  induction s with
  | nil =>
    intro lower upper _ hboth
    rw [isMixedCase]
    constructor
    · intro h; exact absurd h (by simp)
    · intro ⟨h1, h2⟩
      have hl : lower = true := by
        rcases h1 with h | ⟨c, hc, _⟩
        · exact h
        · exact absurd hc (by simp)
      have hu : upper = true := by
        rcases h2 with h | ⟨c, hc, _⟩
        · exact h
        · exact absurd hc (by simp)
      exact absurd ⟨hl, hu⟩ hboth
  | cons ch rest ih =>
    intro lower upper hvalid hboth
    have hch := hvalid ch (by simp)
    have hrest : ∀ c ∈ rest, validChar c = true :=
      fun c hc => hvalid c (List.mem_cons_of_mem _ hc)
    have hcases : isDigitB ch = true ∨ ch = 0x3a ∨ isLowerB ch = true
        ∨ isUpperB ch = true := by
      simpa [validChar, Bool.or_assoc] using hch
    rcases hcases with hdig | hcolon | hlow | hup
    · have hd : 0x30 ≤ ch ∧ ch ≤ 0x39 := of_decide_eq_true hdig
      have hnl : isLowerB ch = false := by simp [isLowerB]; omega
      have hnu : isUpperB ch = false := by simp [isUpperB]; omega
      have hskip : isMixedCase (ch :: rest) lower upper
          = isMixedCase rest lower upper := by
        rw [isMixedCase, if_pos hd]
      rw [hskip, ih lower upper hrest hboth]
      simp [hnl, hnu]
    · subst hcolon
      have hskip : isMixedCase (0x3a :: rest) lower upper
          = isMixedCase rest lower upper := by
        rw [isMixedCase, if_neg (by omega), if_pos rfl]
      rw [hskip, ih lower upper hrest hboth]
      simp [isLowerB, isUpperB]
    · have hl : 0x61 ≤ ch ∧ ch ≤ 0x7a := of_decide_eq_true hlow
      have hnu : isUpperB ch = false := by simp [isUpperB]; omega
      have hstep : isMixedCase (ch :: rest) lower upper
          = if upper then .ok true else isMixedCase rest true upper := by
        rw [isMixedCase, if_neg (by omega), if_neg (by omega),
          if_pos (lower_bit ch hl.1 hl.2), if_neg (by simpa using hl)]
      rw [hstep]
      by_cases hu : upper = true
      · rw [hu, if_pos rfl]
        constructor
        · intro _
          exact ⟨Or.inr ⟨ch, by simp, hlow⟩, Or.inl rfl⟩
        · intro _; rfl
      · have hu' : upper = false := by
          rcases Bool.eq_false_or_eq_true upper with h | h
          · exact absurd h hu
          · exact h
        rw [hu', if_neg (by simp),
          ih true false hrest (by simp)]
        simp [hlow, hnu]
    · have hl : 0x41 ≤ ch ∧ ch ≤ 0x5a := of_decide_eq_true hup
      have hnl : isLowerB ch = false := by simp [isLowerB]; omega
      have hstep : isMixedCase (ch :: rest) lower upper
          = if lower then .ok true else isMixedCase rest lower true := by
        rw [isMixedCase, if_neg (by omega), if_neg (by omega),
          if_neg (by simpa using upper_bit ch hl.1 hl.2),
          if_neg (by simpa using hl)]
      rw [hstep]
      by_cases hlo : lower = true
      · rw [hlo, if_pos rfl]
        constructor
        · intro _
          exact ⟨Or.inl rfl, Or.inr ⟨ch, by simp, hup⟩⟩
        · intro _; rfl
      · have hl' : lower = false := by
          rcases Bool.eq_false_or_eq_true lower with h | h
          · exact absurd h hlo
          · exact h
        rw [hl', if_neg (by simp),
          ih false true hrest (by simp)]
        simp [hup, hnl]

/-- Scanning a valid prefix that has not yet produced both cases, then
an invalid character, asserts. -/
theorem scan_assert : ∀ (pre : List Nat) (lower upper : Bool)
    (c : Nat) (rest : List Nat),
    (∀ d ∈ pre, validChar d = true) →
    validChar c = false →
    ¬ ((lower = true ∨ ∃ d ∈ pre, isLowerB d = true) ∧
       (upper = true ∨ ∃ d ∈ pre, isUpperB d = true)) →
    isMixedCase (pre ++ c :: rest) lower upper = .error () := by
  intro pre
  induction pre with
  | nil =>
    intro lower upper c rest _ hinv _
    have h1 : ¬ (0x30 ≤ c ∧ c ≤ 0x39) := by
      intro h
      rw [show validChar c = (isDigitB c || decide (c = 0x3a) || isLowerB c
        || isUpperB c) from rfl, isDigitB] at hinv
      simp [h] at hinv
    have h2 : ¬ (c = 0x3a) := by
      intro h
      rw [validChar] at hinv
      simp [h] at hinv
    have h3 : ¬ (0x61 ≤ c ∧ c ≤ 0x7a) := by
      intro h
      rw [validChar, isLowerB] at hinv
      simp [h] at hinv
    have h4 : ¬ (0x41 ≤ c ∧ c ≤ 0x5a) := by
      intro h
      rw [validChar, isUpperB] at hinv
      simp [h] at hinv
    rw [List.nil_append, isMixedCase, if_neg h1, if_neg h2]
    by_cases hbit : c &&& 32 ≠ 0
    · rw [if_pos hbit, if_pos h3]
    · rw [if_neg hbit, if_pos h4]
  | cons d pre' ih =>
    intro lower upper c rest hvalid hinv hboth
    have hd := hvalid d (by simp)
    have hpre' : ∀ x ∈ pre', validChar x = true :=
      fun x hx => hvalid x (List.mem_cons_of_mem _ hx)
    have hcases : isDigitB d = true ∨ d = 0x3a ∨ isLowerB d = true
        ∨ isUpperB d = true := by
      simpa [validChar, Bool.or_assoc] using hd
    rw [List.cons_append]
    rcases hcases with hdig | hcolon | hlow | hup
    · have hdd : 0x30 ≤ d ∧ d ≤ 0x39 := of_decide_eq_true hdig
      have hnl : isLowerB d = false := by simp [isLowerB]; omega
      have hnu : isUpperB d = false := by simp [isUpperB]; omega
      have hskip : isMixedCase (d :: (pre' ++ c :: rest)) lower upper
          = isMixedCase (pre' ++ c :: rest) lower upper := by
        rw [isMixedCase, if_pos hdd]
      rw [hskip]
      apply ih lower upper c rest hpre' hinv
      intro ⟨ha, hb⟩
      refine hboth ⟨?_, ?_⟩
      · rcases ha with h | ⟨x, hx, hxl⟩
        · exact Or.inl h
        · exact Or.inr ⟨x, List.mem_cons_of_mem _ hx, hxl⟩
      · rcases hb with h | ⟨x, hx, hxu⟩
        · exact Or.inl h
        · exact Or.inr ⟨x, List.mem_cons_of_mem _ hx, hxu⟩
    · subst hcolon
      have hskip : isMixedCase (0x3a :: (pre' ++ c :: rest)) lower upper
          = isMixedCase (pre' ++ c :: rest) lower upper := by
        rw [isMixedCase, if_neg (by omega), if_pos rfl]
      rw [hskip]
      apply ih lower upper c rest hpre' hinv
      intro ⟨ha, hb⟩
      refine hboth ⟨?_, ?_⟩
      · rcases ha with h | ⟨x, hx, hxl⟩
        · exact Or.inl h
        · exact Or.inr ⟨x, List.mem_cons_of_mem _ hx, hxl⟩
      · rcases hb with h | ⟨x, hx, hxu⟩
        · exact Or.inl h
        · exact Or.inr ⟨x, List.mem_cons_of_mem _ hx, hxu⟩
    · have hl : 0x61 ≤ d ∧ d ≤ 0x7a := of_decide_eq_true hlow
      have hnoupper : ¬ (upper = true ∨ ∃ x ∈ pre', isUpperB x = true) := by
        intro hcontra
        apply hboth
        refine ⟨Or.inr ⟨d, by simp, hlow⟩, ?_⟩
        rcases hcontra with h | ⟨x, hx, hxu⟩
        · exact Or.inl h
        · exact Or.inr ⟨x, List.mem_cons_of_mem _ hx, hxu⟩
      have hu' : upper = false := by
        rcases Bool.eq_false_or_eq_true upper with h | h
        · exact absurd (Or.inl h) hnoupper
        · exact h
      have hstep : isMixedCase (d :: (pre' ++ c :: rest)) lower upper
          = isMixedCase (pre' ++ c :: rest) true upper := by
        rw [isMixedCase, if_neg (by omega), if_neg (by omega),
          if_pos (lower_bit d hl.1 hl.2), if_neg (by simpa using hl),
          hu', if_neg (by simp)]
      rw [hstep]
      apply ih true upper c rest hpre' hinv
      intro ⟨_, hb⟩
      apply hnoupper
      rcases hb with h | hex
      · exact Or.inl h
      · exact Or.inr hex
    · have hl : 0x41 ≤ d ∧ d ≤ 0x5a := of_decide_eq_true hup
      have hnolower : ¬ (lower = true ∨ ∃ x ∈ pre', isLowerB x = true) := by
        intro hcontra
        apply hboth
        refine ⟨?_, Or.inr ⟨d, by simp, hup⟩⟩
        rcases hcontra with h | ⟨x, hx, hxl⟩
        · exact Or.inl h
        · exact Or.inr ⟨x, List.mem_cons_of_mem _ hx, hxl⟩
      have hl' : lower = false := by
        rcases Bool.eq_false_or_eq_true lower with h | h
        · exact absurd (Or.inl h) hnolower
        · exact h
      have hstep : isMixedCase (d :: (pre' ++ c :: rest)) lower upper
          = isMixedCase (pre' ++ c :: rest) lower true := by
        rw [isMixedCase, if_neg (by omega), if_neg (by omega),
          if_neg (by simpa using upper_bit d hl.1 hl.2),
          if_neg (by simpa using hl), hl', if_neg (by simp)]
      rw [hstep]
      apply ih lower true c rest hpre' hinv
      intro ⟨ha, _⟩
      apply hnolower
      rcases ha with h | hex
      · exact Or.inl h
      · exact Or.inr hex

deriving instance DecidableEq for Except

/-- The C9 counterexample string `"A a"`. -/
def c9Str : List Nat := [0x41, 0x20, 0x61]

/-- C9, the claim as stated, is false at a concrete input: `"A a"`
contains an uppercase and a lowercase letter, yet `fromString` throws
the mixed-case scan's assertion (the space aborts the scan before both
cases are registered) instead of parsing via Base58 — even with a
Base58 decoder that would succeed. -/
theorem C9_counterexample :
    (∃ c ∈ c9Str, isUpperB c = true) ∧ (∃ c ∈ c9Str, isLowerB c = true) ∧
    c9Str.length ≠ 0 ∧ c9Str.length ≤ 100 ∧
    fromString (fun _ => some (0 : Nat)) (fun _ => some 1) c9Str
      = .error .assertFail := by
  decide

/-- C9 (amended): for strings inside the length bounds that the
mixed-case scan classifies as mixed (on all-valid-character strings:
both an uppercase and a lowercase letter occur), `fromString` consults
Base58 alone and never the cashaddr decoder; for strings the scan
classifies as not mixed, it tries cashaddr first and falls back to
Base58 when that throws. -/
theorem C9_amended (α : Type) (b58 ca ca' : List Nat → Option α)
    (s : List Nat) (hne : s.length ≠ 0) (hlen : s.length ≤ 100) :
    ((∀ c ∈ s, validChar c = true) →
      (isMixedCase s false false = .ok true ↔
        (∃ c ∈ s, isLowerB c = true) ∧ (∃ c ∈ s, isUpperB c = true))) ∧
    (isMixedCase s false false = .ok true →
      fromString b58 ca s = (match b58 s with
        | some a => .ok a
        | none => .error .thrown) ∧
      fromString b58 ca s = fromString b58 ca' s) ∧
    (isMixedCase s false false = .ok false →
      fromString b58 ca s = (match ca s with
        | some a => .ok a
        | none => match b58 s with
          | some a => .ok a
          | none => .error .thrown)) := by
  refine ⟨?_, ?_, ?_⟩
  · intro hvalid
    rw [scan_valid s false false hvalid (by simp)]
    simp
  · intro hmixed
    have h1 : fromString b58 ca s = (match b58 s with
        | some a => .ok a
        | none => .error .thrown) := by
      rw [fromString, if_neg hne, if_neg (by omega), hmixed]
    have h2 : fromString b58 ca' s = (match b58 s with
        | some a => .ok a
        | none => .error .thrown) := by
      rw [fromString, if_neg hne, if_neg (by omega), hmixed]
    exact ⟨h1, h1.trans h2.symm⟩
  · intro hplain
    rw [fromString, if_neg hne, if_neg (by omega), hplain]

theorem C9_witness :
    fromString (fun _ => some (5 : Nat)) (fun _ => none) [0x41, 0x61]
      = .ok 5 :=
  (((C9_amended Nat (fun _ => some 5) (fun _ => none) (fun _ => some 6)
    [0x41, 0x61] (by decide) (by decide)).2.1 (by decide)).1).trans rfl

/-- The C10 counterexample string `"Aa "`. -/
def c10Str : List Nat := [0x41, 0x61, 0x20]

/-- C10, the claim as stated, is false at a concrete input: `"Aa "`
contains an invalid character (the space), yet the scan returns
mixed-case before reaching it, so `fromString` dispatches to Base58 and
fails with the decoder's throw, not with the scan's assertion. -/
theorem C10_counterexample :
    (∃ c ∈ c10Str, validChar c = false) ∧
    c10Str.length ≠ 0 ∧ c10Str.length ≤ 100 ∧
    fromString (fun _ => (none : Option Nat)) (fun _ => none) c10Str
      = .error .thrown ∧
    ¬ fromString (fun _ => (none : Option Nat)) (fun _ => none) c10Str
        = .error .assertFail := by
  decide

/-- C10 (amended): a string within the length bounds whose first
invalid character is preceded only by valid characters not containing
both an uppercase and a lowercase letter makes `fromString` throw the
mixed-case scan's assertion, before and regardless of either decoder. -/
theorem C10_amended (α : Type) (b58 ca : List Nat → Option α)
    (pre : List Nat) (c : Nat) (rest : List Nat)
    (hlen : (pre ++ c :: rest).length ≤ 100)
    (hvalid : ∀ d ∈ pre, validChar d = true)
    (hinv : validChar c = false)
    (hcases : ¬ ((∃ d ∈ pre, isLowerB d = true) ∧
        (∃ d ∈ pre, isUpperB d = true))) :
    fromString b58 ca (pre ++ c :: rest) = .error .assertFail := by
  have hne : (pre ++ c :: rest).length ≠ 0 := by simp
  rw [fromString, if_neg hne, if_neg (by omega),
    scan_assert pre false false c rest hvalid hinv (by
      intro ⟨ha, hb⟩
      refine hcases ⟨?_, ?_⟩
      · rcases ha with h | h
        · exact absurd h (by simp)
        · exact h
      · rcases hb with h | h
        · exact absurd h (by simp)
        · exact h)]

theorem C10_witness :
    fromString (fun _ => some (5 : Nat)) (fun _ => some 6) [0x62, 0x2d]
      = .error .assertFail :=
  C10_amended Nat (fun _ => some 5) (fun _ => some 6) [0x62] 0x2d []
    (by decide) (by decide) (by decide) (by decide)

/-! ## Block assembly (`Miner.assemble`): the selection loop

`lib/mining/miner.js` is among the sources; `BlockTemplate.BlockEntry`
(template.js) and the `bheep` heap are not.  A `BlockEntry` is modelled
by the fields the loop reads — `tx.getSize()` and
`tx.isFinal(attempt.height, attempt.locktime)` are per-item constants
because the template's height and locktime are fixed while the loop
runs; `id` stands for the `hash` key of the dependency map.  The heap
is modelled as a list whose `shift` extracts a comparator-least
element (leftmost among ties; bheep leaves tie order unspecified). -/

structure BlockEntry where
  id : Nat
  size : Nat
  sigops : Nat
  fee : Int
  rate : Int
  descRate : Int
  priority : Int
  free : Bool
  final : Bool
  deriving Repr, DecidableEq

/-- The effective rate `cmpRate` sorts by: `a.rate`, replaced by
`a.descRate` when that is larger. -/
def maxRate (a : BlockEntry) : Int :=
  if a.rate < a.descRate then a.descRate else a.rate

/-- `cmpRate(a, b)` of miner.js: descending by `maxRate`, ties broken
by descending priority (`return y - x`). -/
def cmpRate (a b : BlockEntry) : Int :=
  if maxRate a = maxRate b then b.priority - a.priority
  else maxRate b - maxRate a

/-- `cmpPriority(a, b)` of miner.js: descending priority, ties by
`cmpRate`. -/
def cmpPriority (a b : BlockEntry) : Int :=
  if a.priority = b.priority then cmpRate a b else b.priority - a.priority

/-- Modelled from the spec: the external bheep heap's `shift()` —
remove a comparator-least element (`cmp x y ≤ 0` means `x` may come
before `y`). -/
def popMin (cmp : BlockEntry → BlockEntry → Int) :
    List BlockEntry → Option (BlockEntry × List BlockEntry)
  | [] => none
  | x :: xs =>
    match popMin cmp xs with
    | none => some (x, [])
    | some (m, rest) =>
      if cmp x m ≤ 0 then some (x, xs) else some (m, x :: rest)

/-- "a is scheduled no later than b" under `cmpRate`: strictly larger
effective rate, or equal rates and no smaller priority. -/
def relRate (a b : BlockEntry) : Prop :=
  maxRate b < maxRate a ∨ (maxRate b = maxRate a ∧ b.priority ≤ a.priority)

/-- The miner options the loop consults. -/
structure MinerOpts where
  maxSize : Nat
  maxSigops : Nat
  minSize : Nat
  prioritySize : Nat
  priorityThreshold : Int

/-- The loop state: the phase flag, the template accumulators
(`attempt.size/sigops/fees/items`), the heap, and the live
`depCount` of every mempool item (`counts`, by item id). -/
structure AsmState where
  priority : Bool
  size : Nat
  sigops : Nat
  fees : Int
  items : List BlockEntry
  queue : List BlockEntry
  counts : Nat → Int

/-- The dependent-releasing loop run on commit: `for (const item of
deps) if (--item.depCount === 0) queue.insert(item);`. -/
def processDeps (entryOf : Nat → BlockEntry) :
    List Nat → (Nat → Int) → List BlockEntry → (Nat → Int) × List BlockEntry
  | [], counts, queue => (counts, queue)
  | d :: ds, counts, queue =>
    let c := counts d - 1
    processDeps entryOf ds (fun x => if x = d then c else counts x)
      (if c = 0 then entryOf d :: queue else queue)

/-- The state after committing `item` popped off `rest`: size, sigops
and fees updated, the entry appended, dependents decremented and the
newly-free ones inserted. -/
def commitState (deps : Nat → List Nat) (entryOf : Nat → BlockEntry)
    (s : AsmState) (item : BlockEntry) (rest : List BlockEntry) : AsmState :=
  let p := processDeps entryOf (deps item.id) s.counts rest
  { priority := s.priority
    size := s.size + item.size
    sigops := s.sigops + item.sigops
    fees := s.fees + item.fee
    items := s.items ++ [item]
    queue := p.2
    counts := p.1 }

/-- The `while (queue.size() > 0)` loop of `Miner.assemble`, with fuel
(each iteration pops one entry; commits may insert freed dependents).
The body mirrors the source: skip non-final entries and entries that
would overflow `maxSize` or `maxSigops`; in the priority phase, fall
over to the fee-rate comparator (re-inserting the entry) when the
priority budget or threshold is hit; in the fee-rate phase skip free
entries once `minSize` is reached; otherwise commit. -/
def assembleLoop (opts : MinerOpts) (deps : Nat → List Nat)
    (entryOf : Nat → BlockEntry) : Nat → AsmState → AsmState
  | 0, s => s
  | fuel+1, s =>
    match popMin (if s.priority = true then cmpPriority else cmpRate) s.queue with
    | none => s
    | some (item, rest) =>
      if item.final = false then
        assembleLoop opts deps entryOf fuel { s with queue := rest }
      else if opts.maxSize < s.size + item.size then
        assembleLoop opts deps entryOf fuel { s with queue := rest }
      else if opts.maxSigops < s.sigops + item.sigops then
        assembleLoop opts deps entryOf fuel { s with queue := rest }
      else if s.priority = true ∧ (opts.prioritySize < s.size + item.size
          ∨ item.priority < opts.priorityThreshold) then
        assembleLoop opts deps entryOf fuel
          { s with priority := false, queue := item :: rest }
      else if s.priority = false ∧ item.free = true
          ∧ opts.minSize ≤ s.size + item.size then
        assembleLoop opts deps entryOf fuel { s with queue := rest }
      else
        assembleLoop opts deps entryOf fuel (commitState deps entryOf s item rest)

theorem cmpRate_nonpos_iff (a b : BlockEntry) :
    cmpRate a b ≤ 0 ↔ relRate a b := by
  rw [cmpRate, relRate]
  by_cases h : maxRate a = maxRate b
  · rw [if_pos h]
    omega
  · rw [if_neg h]
    omega

theorem relRate_total (a b : BlockEntry) : relRate a b ∨ relRate b a := by
  rw [relRate, relRate]
  omega

theorem relRate_trans (a b c : BlockEntry) (h1 : relRate a b)
    (h2 : relRate b c) : relRate a c := by
  rw [relRate] at *
  omega

theorem popMin_eq_none (cmp : BlockEntry → BlockEntry → Int) :
    ∀ l, popMin cmp l = none ↔ l = [] := by
  intro l
  cases l with
  | nil => simp [popMin]
  | cons x xs =>
    simp only [popMin]
    cases h : popMin cmp xs with
    | none => simp
    | some p =>
      rcases p with ⟨m, rest⟩
      by_cases hc : cmp x m ≤ 0 <;> simp [hc]

theorem popMin_perm (cmp : BlockEntry → BlockEntry → Int) :
    ∀ l item rest, popMin cmp l = some (item, rest) →
      l.Perm (item :: rest) := by
  intro l
  induction l with
  | nil => intro item rest h; exact absurd h (by simp [popMin])
  | cons x xs ih =>
    intro item rest h
    rw [popMin] at h
    cases hxs : popMin cmp xs with
    | none =>
      rw [hxs] at h
      replace h : some (x, ([] : List BlockEntry)) = some (item, rest) := h
      simp at h
      obtain ⟨h1, h2⟩ := h
      subst h1
      subst h2
      rw [(popMin_eq_none cmp xs).mp hxs]
    | some p =>
      rcases p with ⟨m, r⟩
      rw [hxs] at h
      replace h : (if cmp x m ≤ 0 then some (x, xs) else some (m, x :: r))
          = some (item, rest) := h
      by_cases hc : cmp x m ≤ 0
      · rw [if_pos hc] at h
        simp at h
        obtain ⟨h1, h2⟩ := h
        subst h1
        subst h2
        exact List.Perm.refl _
      · rw [if_neg hc] at h
        simp at h
        obtain ⟨h1, h2⟩ := h
        subst h1
        subst h2
        exact ((ih m r hxs).cons x).trans (List.Perm.swap m x r)

theorem popMin_min :
    ∀ l item rest, popMin cmpRate l = some (item, rest) →
      ∀ q ∈ rest, relRate item q := by
  intro l
  induction l with
  | nil => intro item rest h; exact absurd h (by simp [popMin])
  | cons x xs ih =>
    intro item rest h
    rw [popMin] at h
    cases hxs : popMin cmpRate xs with
    | none =>
      rw [hxs] at h
      replace h : some (x, ([] : List BlockEntry)) = some (item, rest) := h
      simp at h
      obtain ⟨h1, h2⟩ := h
      subst h1
      subst h2
      intro q hq
      exact absurd hq (by simp)
    | some p =>
      rcases p with ⟨m, r⟩
      rw [hxs] at h
      replace h : (if cmpRate x m ≤ 0 then some (x, xs) else some (m, x :: r))
          = some (item, rest) := h
      by_cases hc : cmpRate x m ≤ 0
      · rw [if_pos hc] at h
        simp at h
        obtain ⟨h1, h2⟩ := h
        subst h1
        subst h2
        intro q hq
        have hxm : relRate x m := (cmpRate_nonpos_iff x m).mp hc
        have hq' : q ∈ m :: r := ((popMin_perm cmpRate xs m r hxs).mem_iff).mp hq
        rcases List.mem_cons.mp hq' with hqm | hqr
        · rw [hqm]; exact hxm
        · exact relRate_trans x m q hxm (ih m r hxs q hqr)
      · rw [if_neg hc] at h
        simp at h
        obtain ⟨h1, h2⟩ := h
        subst h1
        subst h2
        intro q hq
        rcases List.mem_cons.mp hq with hqx | hqr
        · rw [hqx]
          rcases relRate_total m x with hgood | hbad
          · exact hgood
          · exact absurd ((cmpRate_nonpos_iff x m).mpr hbad) hc
        · exact ih m r hxs q hqr

/-- One unfolding of the loop at a successful pop; the right-hand side
is the source's body verbatim. -/
theorem assembleLoop_pop (opts : MinerOpts) (deps : Nat → List Nat)
    (entryOf : Nat → BlockEntry) (fuel : Nat) (s : AsmState)
    (item : BlockEntry) (rest : List BlockEntry)
    (hq : popMin (if s.priority = true then cmpPriority else cmpRate) s.queue
      = some (item, rest)) :
    assembleLoop opts deps entryOf (fuel+1) s =
      (if item.final = false then
        assembleLoop opts deps entryOf fuel { s with queue := rest }
      else if opts.maxSize < s.size + item.size then
        assembleLoop opts deps entryOf fuel { s with queue := rest }
      else if opts.maxSigops < s.sigops + item.sigops then
        assembleLoop opts deps entryOf fuel { s with queue := rest }
      else if s.priority = true ∧ (opts.prioritySize < s.size + item.size
          ∨ item.priority < opts.priorityThreshold) then
        assembleLoop opts deps entryOf fuel
          { s with priority := false, queue := item :: rest }
      else if s.priority = false ∧ item.free = true
          ∧ opts.minSize ≤ s.size + item.size then
        assembleLoop opts deps entryOf fuel { s with queue := rest }
      else
        assembleLoop opts deps entryOf fuel (commitState deps entryOf s item rest)) := by
  rw [assembleLoop, hq]

/-- A free (zero-fee-rate-exempt) final entry that fits comfortably in
the block. -/
def c7Item : BlockEntry :=
  { id := 1, size := 100, sigops := 0, fee := 5000, rate := 50,
    descRate := 50, priority := 0, free := true, final := true }

def c7Opts : MinerOpts :=
  { maxSize := 1000000, maxSigops := 20000, minSize := 0,
    prioritySize := 0, priorityThreshold := 0 }

def c7State : AsmState :=
  { priority := false, size := 0, sigops := 0, fees := 0, items := [],
    queue := [c7Item], counts := fun _ => 0 }

/-- C7, counterexample: in the fee-rate phase a popped entry that is
final and fits under both `maxSize` and `maxSigops` is nevertheless
NOT committed when it is free and the would-be size has reached
`minSize` (here `minSize = 0`): the loop ends with no items and no
fees collected, refuting the claim's "every popped entry is committed
unless maxSize/maxSigops/isFinal". -/
theorem C7_counterexample :
    c7Item.final = true ∧
    c7State.size + c7Item.size ≤ c7Opts.maxSize ∧
    c7State.sigops + c7Item.sigops ≤ c7Opts.maxSigops ∧
    c7State.priority = false ∧
    popMin cmpRate c7State.queue = some (c7Item, []) ∧
    (assembleLoop c7Opts (fun _ => []) (fun _ => c7Item) 2 c7State).items = [] ∧
    (assembleLoop c7Opts (fun _ => []) (fun _ => c7Item) 2 c7State).fees = 0 := by
  decide

/-- C7: in the fee-rate phase (`priority = false`), (i) the heap pops
a remaining entry of maximal effective rate `max(rate, descRate)`,
ties broken by priority; (ii) the popped entry is committed — size,
sigops and fees updated, the entry appended, dependents' counts
decremented and newly-free dependents inserted — when it is final,
fits under `maxSize` and `maxSigops`, and is NOT a free entry with the
new size at least `minSize`; (iii) it is skipped (state unchanged but
for the pop) when non-final, oversize, over the sigop budget, or free
with the new size at least `minSize`. -/
theorem C7_amended (opts : MinerOpts) (deps : Nat → List Nat)
    (entryOf : Nat → BlockEntry) (fuel : Nat) (s : AsmState)
    (item : BlockEntry) (rest : List BlockEntry)
    (hpr : s.priority = false)
    (hpop : popMin cmpRate s.queue = some (item, rest)) :
    (∀ q ∈ rest, maxRate q < maxRate item ∨
        (maxRate q = maxRate item ∧ q.priority ≤ item.priority)) ∧
    (item.final = true → s.size + item.size ≤ opts.maxSize →
      s.sigops + item.sigops ≤ opts.maxSigops →
      ¬(item.free = true ∧ opts.minSize ≤ s.size + item.size) →
      assembleLoop opts deps entryOf (fuel+1) s
        = assembleLoop opts deps entryOf fuel
            (commitState deps entryOf s item rest)) ∧
    (item.final = false ∨ opts.maxSize < s.size + item.size ∨
        opts.maxSigops < s.sigops + item.sigops ∨
        (item.free = true ∧ opts.minSize ≤ s.size + item.size) →
      assembleLoop opts deps entryOf (fuel+1) s
        = assembleLoop opts deps entryOf fuel { s with queue := rest }) := by
  have hq : popMin (if s.priority = true then cmpPriority else cmpRate) s.queue
      = some (item, rest) := by
    rw [hpr]
    simpa using hpop
  refine ⟨?_, ?_, ?_⟩
  · intro q hq2
    exact popMin_min s.queue item rest hpop q hq2
  · intro hfin hsz hsig hfree
    rw [assembleLoop_pop opts deps entryOf fuel s item rest hq]
    rw [if_neg (by rw [hfin]; simp)]
    rw [if_neg (not_lt.mpr hsz)]
    rw [if_neg (not_lt.mpr hsig)]
    rw [if_neg (by rw [hpr]; simp)]
    rw [if_neg (fun hcon => hfree ⟨hcon.2.1, hcon.2.2⟩)]
  · intro hbad
    rw [assembleLoop_pop opts deps entryOf fuel s item rest hq]
    rcases hbad with h1 | h2 | h3 | h4
    · rw [if_pos h1]
    · by_cases hf : item.final = false
      · rw [if_pos hf]
      · rw [if_neg hf, if_pos h2]
    · by_cases hf : item.final = false
      · rw [if_pos hf]
      · rw [if_neg hf]
        by_cases hs : opts.maxSize < s.size + item.size
        · rw [if_pos hs]
        · rw [if_neg hs, if_pos h3]
    · by_cases hf : item.final = false
      · rw [if_pos hf]
      · rw [if_neg hf]
        by_cases hs : opts.maxSize < s.size + item.size
        · rw [if_pos hs]
        · rw [if_neg hs]
          by_cases hg : opts.maxSigops < s.sigops + item.sigops
          · rw [if_pos hg]
          · rw [if_neg hg]
            rw [if_neg (by rw [hpr]; simp)]
            rw [if_pos ⟨hpr, h4.1, h4.2⟩]

/-- A non-free final entry with a lower effective rate than `c7Item`. -/
def c7wItem : BlockEntry :=
  { id := 2, size := 200, sigops := 1, fee := 7000, rate := 35,
    descRate := 40, priority := 3, free := false, final := true }

def c7wOpts : MinerOpts :=
  { maxSize := 1000000, maxSigops := 20000, minSize := 1000000,
    prioritySize := 0, priorityThreshold := 0 }

def c7wState : AsmState :=
  { priority := false, size := 100, sigops := 2, fees := 5000,
    items := [], queue := [c7wItem, c7Item], counts := fun _ => 0 }

/-- C7, witness: with a two-entry heap the higher-rate entry is popped
first and, being final, fitting, and under `minSize`, is committed. -/
theorem C7_witness :
    assembleLoop c7wOpts (fun _ => []) (fun _ => c7Item) 3 c7wState
      = assembleLoop c7wOpts (fun _ => []) (fun _ => c7Item) 2
          (commitState (fun _ => []) (fun _ => c7Item) c7wState c7Item [c7wItem]) :=
  (C7_amended c7wOpts (fun _ => []) (fun _ => c7Item) 2 c7wState c7Item [c7wItem]
    (by decide) (by decide)).2.1 (by decide) (by decide) (by decide) (by decide)

end BCash
